import Mathlib

/-!
# Agoo request accessors and rack environment (ext/agoo/request.c)

A shallow embedding of `request.c`.  Byte ranges (`start`, `len`) are lists of
characters, a `Req` pointer that may be NULL is an `Option Req`, Ruby values are
the inductive type `Value`, and a Ruby Hash is an insertion ordered association
list.  A C function that can raise or run into undefined behaviour returns
`Except Fault _`.
-/

namespace Agoo

/-! ## Values, faults and the Ruby C API used by the file -/

/-- Ways an execution can stop without a value: `ArgError msg` is
`rb_raise(rb_eArgError, msg)`, `undefined` is C undefined behaviour (a NULL
dereference, arithmetic on a NULL or uninitialised pointer, a write outside an
array). -/
inductive Fault
  | ArgError (msg : String)
  | undefined
  deriving DecidableEq, Repr

/-- The error every guarded accessor raises on a NULL request. -/
def invalid_request : Fault := Fault.ArgError "Request is no longer valid."

/-- Modelled from the spec: the server configuration (its declaration is not in
request.c); only `thread_cnt` is read. -/
structure Server where
  thread_cnt : Int
  deriving DecidableEq, Repr

/-- Modelled from the spec: the method enum of request.h, "enum {CONNECT, DELETE,
GET, HEAD, OPTIONS, POST, PUT, other}"; `OTHER` stands for every value of
`r->method` that reaches the `default:` label of the switch. -/
inductive Method
  | CONNECT | DELETE | GET | HEAD | OPTIONS | POST | PUT | OTHER
  deriving DecidableEq, Repr

/-- Modelled from the spec: the request struct of request.h, with the fields
request.c reads.  A range whose `start` may be NULL (`query`, `body`) is an
`Option`; `server` may be NULL as well. -/
structure Req where
  method : Method
  path : List Char
  query : Option (List Char)
  header : List Char
  body : Option (List Char)
  server : Option Server
  deriving DecidableEq, Repr

/-- Ruby values that request.c produces.  `stringio s` is `StringIO.new(s)` and
`error_stream s` is what `error_stream_new(s)` returns; both constructors belong
to collaborators and are kept symbolic. -/
inductive Value
  | nil
  | bool (b : Bool)
  | str (bytes : List Char)
  | stringio (arg : Value)
  | error_stream (server : Option Server)
  deriving DecidableEq, Repr

/-- A Ruby Hash with String keys: entries in insertion order. -/
abbrev Hash := List (List Char × Value)

/-- The call `rb_hash_aset(hash, key, val)`: an existing key keeps its position and
gets the new value, a new key is appended. -/
def rb_hash_aset : Hash → List Char → Value → Hash
  | [], k, v => [(k, v)]
  | (k0, v0) :: rest, k, v =>
    if k0 = k then (k, v) :: rest else (k0, v0) :: rb_hash_aset rest k v

/-- The lookup `hash[key]`. -/
def rb_hash_aref : Hash → List Char → Option Value
  | [], _ => none
  | (k0, v0) :: rest, k => if k0 = k then some v0 else rb_hash_aref rest k

/-- The call `rb_str_new(ptr, len)`: Ruby raises an ArgumentError for a negative
length and otherwise copies `len` bytes (NUL bytes included).  `ptr` is the memory
readable at the pointer. -/
def rb_str_new (ptr : List Char) (len : Int) : Except Fault Value :=
  if len < 0 then Except.error (Fault.ArgError "negative string size (or size too big)")
  else Except.ok (Value.str (ptr.take len.toNat))

/-! ## Interned constants (request_init) -/

def connect_val : Value := Value.str "CONNECT".toList
def content_length_val : List Char := "CONTENT_LENGTH".toList
def content_type_val : List Char := "CONTENT_TYPE".toList
def delete_val : Value := Value.str "DELETE".toList
def empty_val : Value := Value.str []
def get_val : Value := Value.str "GET".toList
def head_val : Value := Value.str "HEAD".toList
def http_val : Value := Value.str "http".toList
def options_val : Value := Value.str "OPTIONS".toList
def path_info_val : List Char := "PATH_INFO".toList
def post_val : Value := Value.str "POST".toList
def put_val : Value := Value.str "PUT".toList
def query_string_val : List Char := "QUERY_STRING".toList
def rack_errors_val : List Char := "rack.errors".toList
def rack_input_val : List Char := "rack.input".toList
def rack_multiprocess_val : List Char := "rack.multiprocess".toList
def rack_multithread_val : List Char := "rack.multithread".toList
def rack_run_once_val : List Char := "rack.run_once".toList
def rack_url_scheme_val : List Char := "rack.url_scheme".toList
def rack_version_val : List Char := "rack.version".toList
def rack_version_val_val : Value := Value.str "2.0.3".toList
def request_method_val : List Char := "REQUEST_METHOD".toList
def script_name_val : List Char := "SCRIPT_NAME".toList
def server_name_val : List Char := "SERVER_NAME".toList
def server_port_val : List Char := "SERVER_PORT".toList
def slash_val : Value := Value.str ['/']

def content_type : List Char := "Content-Type".toList
def content_length : List Char := "Content-Length".toList

/-! ## Field accessors -/

def req_method (r : Option Req) : Except Fault Value :=
  match r with
  | none => Except.error invalid_request
  | some r =>
    match r.method with
    | Method.CONNECT => Except.ok connect_val
    | Method.DELETE => Except.ok delete_val
    | Method.GET => Except.ok get_val
    | Method.HEAD => Except.ok head_val
    | Method.OPTIONS => Except.ok options_val
    | Method.POST => Except.ok post_val
    | Method.PUT => Except.ok put_val
    | Method.OTHER => Except.ok Value.nil

def method (self : Option Req) : Except Fault Value := req_method self

def req_script_name (r : Option Req) : Except Fault Value :=
  match r with
  | none => Except.error invalid_request
  | some r =>
    if r.path.length = 0 ∨ (r.path.length = 1 ∧ r.path.head? = some '/') then
      Except.ok empty_val
    else rb_str_new r.path r.path.length

def script_name (self : Option Req) : Except Fault Value := req_script_name self

def req_path_info (r : Option Req) : Except Fault Value :=
  match r with
  | none => Except.error invalid_request
  | some r =>
    if r.path.length = 0 ∨ (r.path.length = 1 ∧ r.path.head? = some '/') then
      Except.ok slash_val
    else Except.ok empty_val

def path_info (self : Option Req) : Except Fault Value := req_path_info self

def req_query_string (r : Option Req) : Except Fault Value :=
  match r with
  | none => Except.error invalid_request
  | some r =>
    match r.query with
    | none => Except.ok empty_val
    | some q => rb_str_new q q.length

def query_string (self : Option Req) : Except Fault Value := req_query_string self

/-- The loop `for (colon = host + len - 1; host < colon; colon--)` of
req_server_name and req_server_port, started with `colon` at offset `c >= 0` from
`host`: the offset of `colon` when the loop ends (it stops at a colon byte or
at offset 0, which is never inspected). -/
def host_scan (host : List Char) : Nat → Nat
  | 0 => 0
  | c + 1 => if host[c + 1]? = some ':' then c + 1 else host_scan host c

/-- The offset `colon - host` after the loop, for the start offset `len - 1`;
with `len = 0` the start offset is `-1`, the loop body never runs and `colon`
stays at `host - 1`. -/
def host_colon (host : List Char) (start : Int) : Int :=
  match start with
  | Int.ofNat c => Int.ofNat (host_scan host c)
  | Int.negSucc _ => start

/-- The accessor req_server_name.  `con_header_value` (con.c) is not part of this
file: it is a parameter, called with the header block and the name and giving
the value range (`host`, `len`) or NULL. -/
def req_server_name (con_header_value : List Char → List Char → Option (List Char))
    (r : Option Req) : Except Fault Value :=
  match r with
  | none => Except.error invalid_request
  | some r =>
    match con_header_value r.header "Host".toList with
    | none => Except.ok Value.nil
    | some host =>
      let len : Int := host.length
      let colon := host_colon host (len - 1)
      if colon = 0 then Except.ok Value.nil
      else rb_str_new host colon

def server_name (con_header_value : List Char → List Char → Option (List Char))
    (self : Option Req) : Except Fault Value := req_server_name con_header_value self

/-- The accessor req_server_port; the string starts at `colon + 1` and has
`host + len - colon - 1` bytes. -/
def req_server_port (con_header_value : List Char → List Char → Option (List Char))
    (r : Option Req) : Except Fault Value :=
  match r with
  | none => Except.error invalid_request
  | some r =>
    match con_header_value r.header "Host".toList with
    | none => Except.ok Value.nil
    | some host =>
      let len : Int := host.length
      let colon := host_colon host (len - 1)
      if colon = 0 then Except.ok Value.nil
      else rb_str_new (host.drop (colon + 1).toNat) (len - colon - 1)

def server_port (con_header_value : List Char → List Char → Option (List Char))
    (self : Option Req) : Except Fault Value := req_server_port con_header_value self

/-- The accessor rack_version: no look at the request at all. -/
def rack_version (_self : Option Req) : Except Fault Value := Except.ok rack_version_val_val

def req_rack_url_scheme (_r : Option Req) : Except Fault Value := Except.ok http_val

def rack_url_scheme (self : Option Req) : Except Fault Value := req_rack_url_scheme self

def req_rack_input (r : Option Req) : Except Fault Value :=
  match r with
  | none => Except.error invalid_request
  | some r =>
    match r.body with
    | none => Except.ok Value.nil
    | some b => (rb_str_new b b.length).map Value.stringio

def rack_input (self : Option Req) : Except Fault Value := req_rack_input self

/-- The accessor req_rack_errors reads `r->server` without a NULL guard. -/
def req_rack_errors (r : Option Req) : Except Fault Value :=
  match r with
  | none => Except.error Fault.undefined
  | some r => Except.ok (Value.error_stream r.server)

def rack_errors (self : Option Req) : Except Fault Value := req_rack_errors self

def req_rack_multithread (r : Option Req) : Except Fault Value :=
  match r with
  | none => Except.error invalid_request
  | some r =>
    match r.server with
    | some s => if 1 < s.thread_cnt then Except.ok (Value.bool true) else Except.ok (Value.bool false)
    | none => Except.ok (Value.bool false)

def rack_multithread (self : Option Req) : Except Fault Value := req_rack_multithread self

def rack_multiprocess (_self : Option Req) : Except Fault Value := Except.ok (Value.bool false)

def rack_run_once (_self : Option Req) : Except Fault Value := Except.ok (Value.bool false)

/-! ## Header classification: add_header_value -/

/-- The terminating byte of a C string. -/
def NUL : Char := Char.ofNat 0

/-- The libc call `strncasecmp(s1, s2, n)`: at most `n` bytes are compared after
`tolower`, the comparison stops at the first difference or at a NUL.  The end
of a list reads as the terminating NUL. -/
def strncasecmp : List Char → List Char → Nat → Int
  | _, _, 0 => 0
  | s1, s2, n + 1 =>
    let c1 := (s1.headD NUL).toLower
    let c2 := (s2.headD NUL).toLower
    if c1 ≠ c2 then (c1.toNat : Int) - (c2.toNat : Int)
    else if c1 = NUL then 0
    else strncasecmp s1.tail s2.tail n

/-- The store `a[i] = c` into a local char array whose cells are `none` until
written; a store outside the array is undefined behaviour. -/
def store (a : List (Option Char)) (i : Nat) (c : Char) : Except Fault (List (Option Char)) :=
  if i < a.length then Except.ok (a.set i (some c)) else Except.error Fault.undefined

/-- Stores of consecutive bytes from index `i` on. -/
def store_bytes : List (Option Char) → Nat → List Char → Except Fault (List (Option Char))
  | a, _, [] => Except.ok a
  | a, i, c :: cs => (store a i c).bind fun a1 => store_bytes a1 (i + 1) cs

/-- The libc call `strcpy(dst, src)` for a literal `src`: its bytes and the
terminating NUL are stored from index 0. -/
def strcpy (dst : List (Option Char)) (src : List Char) : Except Fault (List (Option Char)) :=
  store_bytes dst 0 (src ++ [NUL])

/-- The `n` bytes that `strncpy(dst, src, n)` writes: the bytes of `src` up to
its first NUL, then NUL padding up to `n` bytes. -/
def strncpy_bytes : List Char → Nat → List Char
  | _, 0 => []
  | [], n + 1 => List.replicate (n + 1) NUL
  | c :: cs, n + 1 =>
    if c = NUL then List.replicate (n + 1) NUL else c :: strncpy_bytes cs n

/-- The libc call `strncpy(dst + off, src, n)`. -/
def strncpy (dst : List (Option Char)) (off : Nat) (src : List Char) (n : Nat) :
    Except Fault (List (Option Char)) :=
  store_bytes dst off (strncpy_bytes src n)

/-- Reading the first `n` bytes of a local array; a cell never written or
outside the array is undefined behaviour. -/
def load_bytes : List (Option Char) → Nat → Except Fault (List Char)
  | _, 0 => Except.ok []
  | [], _ + 1 => Except.error Fault.undefined
  | none :: _, _ + 1 => Except.error Fault.undefined
  | some c :: a, n + 1 => (load_bytes a n).map fun cs => c :: cs

/-- The function add_header_value.  `key` and `val` are the memory readable at
the two pointers, `klen` and `vlen` the int lengths.  `sizeof(content_type) - 1`
is the length of the literal, `sizeof(hkey)` is 1024. -/
def add_header_value (hh : Hash) (key : List Char) (klen : Int) (val : List Char) (vlen : Int) :
    Except Fault Hash :=
  if (content_type.length : Int) = klen ∧ strncasecmp key content_type content_type.length = 0 then
    (rb_str_new val vlen).map fun v => rb_hash_aset hh content_type_val v
  else if (content_length.length : Int) = klen ∧
      strncasecmp key content_length content_length.length = 0 then
    (rb_str_new val vlen).map fun v => rb_hash_aset hh content_length_val v
  else
    let hkey : List (Option Char) := List.replicate 1024 none
    (strcpy hkey "HTTP_".toList).bind fun hkey =>
    let klen : Int := if (1024 - 5 : Int) ≤ klen then 1024 - 6 else klen
    -- a negative count becomes a huge size_t in strncpy
    if klen < 0 then Except.error Fault.undefined else
    (strncpy hkey 5 key klen.toNat).bind fun hkey =>
    (store hkey (klen.toNat + 5) NUL).bind fun hkey =>
    (load_bytes hkey (klen.toNat + 5)).bind fun k =>
    (rb_str_new val vlen).map fun v => rb_hash_aset hh k v

/-! ## The header tokenizer: fill_headers -/

/-- The pointer `vend`, which is declared without an initialiser. -/
inductive Ptr
  | uninit
  | null
  | addr (off : Nat)
  deriving DecidableEq, Repr

/-- The cursors at a call of add_header_value, as offsets from `header.start`;
`kend` and `val` are NULL (`none`) or an address. -/
structure Call where
  key : Nat
  kend : Option Nat
  val : Option Nat
  vend : Ptr
  deriving DecidableEq, Repr

/-- The loop `for (; h < end; h++)` of fill_headers over the bytes from `h` on,
with the current cursors.  A call of add_header_value writes to the hash only,
never to a cursor, so the loop is given as the list of the calls it makes, in
order, and fill_headers runs them one after the other.  When the CR is the last
byte of the block the byte tested at `h + 1` lies behind the block: whatever it
is, the loop ends with this call. -/
def fill_loop : List Char → Nat → Nat → Option Nat → Option Nat → Ptr → List Call
  | [], _, _, _, _, _ => []
  | c :: rest, h, key, kend, val, vend =>
    if c = ':' then fill_loop rest (h + 1) key (some h) (some (h + 1)) vend
    else if c = ' ' then
      match val with
      | some v => fill_loop rest (h + 1) key kend (some (v + 1)) vend
      | none => fill_loop rest (h + 1) (key + 1) kend val vend
    else if c = '\r' then
      let vend1 := if val.isSome then Ptr.addr h else vend
      let call : Call := ⟨key, kend, val, vend1⟩
      match rest with
      | [] => [call]
      | c1 :: rest1 =>
        if c1 = '\n' then call :: fill_loop rest1 (h + 2) (h + 2) none none Ptr.null
        else call :: fill_loop (c1 :: rest1) (h + 1) (h + 1) none none Ptr.null
    else fill_loop rest (h + 1) key kend val vend

/-- The calls of add_header_value that fill_headers makes for a header block:
`h`, `key` and `kend` start at `header.start`, `val` at NULL, `vend` unset. -/
def header_calls (header : List Char) : List Call :=
  fill_loop header 0 0 (some 0) none Ptr.uninit

/-- The call `add_header_value(hash, key, (int)(kend - key), val, (int)(vend - val))`:
a difference with a NULL or unset pointer is undefined behaviour.  `header.len` is
an int, so no difference of two addresses of the block leaves the range of int
and the casts keep the values. -/
def call_add_header_value (header : List Char) (hh : Hash) (c : Call) : Except Fault Hash :=
  match c.kend, c.val, c.vend with
  | some kend, some val, Ptr.addr vend =>
    add_header_value hh (header.drop c.key) ((kend : Int) - (c.key : Int))
      (header.drop val) ((vend : Int) - (val : Int))
  | _, _, _ => Except.error Fault.undefined

/-- The function fill_headers; `r->header.start` is read before the NULL guard.  A
call that raises or is undefined ends the run. -/
def fill_headers (r : Option Req) (hash : Hash) : Except Fault Hash :=
  match r with
  | none => Except.error Fault.undefined
  | some r => (header_calls r.header).foldlM (call_add_header_value r.header) hash

/-- The name and value byte ranges a call hands to add_header_value, when all
four cursors are addresses and both lengths are non-negative. -/
def call_entry (header : List Char) (c : Call) : Option (List Char × List Char) :=
  match c.kend, c.val, c.vend with
  | some kend, some val, Ptr.addr vend =>
    if c.key ≤ kend ∧ val ≤ vend then
      some ((header.drop c.key).take (kend - c.key), (header.drop val).take (vend - val))
    else none
  | _, _, _ => none

/-- The entries (name, value) the tokenizer emits for a header block. -/
def header_entries (header : List Char) : List (Option (List Char × List Char)) :=
  (header_calls header).map (call_entry header)

def headers (self : Option Req) : Except Fault Hash :=
  match self with
  | none => Except.error invalid_request
  | some r => fill_headers (some r) []

def body (self : Option Req) : Except Fault Value :=
  match self with
  | none => Except.error invalid_request
  | some r =>
    match r.body with
    | none => Except.ok Value.nil
    | some b => rb_str_new b b.length

/-! ## The rack environment -/

def request_env (con_header_value : List Char → List Char → Option (List Char))
    (req : Option Req) : Except Fault Hash :=
  let env : Hash := []
  (req_method req).bind fun v =>
  let env := rb_hash_aset env request_method_val v
  (req_script_name req).bind fun v =>
  let env := rb_hash_aset env script_name_val v
  (req_path_info req).bind fun v =>
  let env := rb_hash_aset env path_info_val v
  (req_query_string req).bind fun v =>
  let env := rb_hash_aset env query_string_val v
  (req_server_name con_header_value req).bind fun v =>
  let env := rb_hash_aset env server_name_val v
  (req_server_port con_header_value req).bind fun v =>
  let env := rb_hash_aset env server_port_val v
  (fill_headers req env).bind fun env =>
  let env := rb_hash_aset env rack_version_val rack_version_val_val
  (req_rack_url_scheme req).bind fun v =>
  let env := rb_hash_aset env rack_url_scheme_val v
  (req_rack_input req).bind fun v =>
  let env := rb_hash_aset env rack_input_val v
  (req_rack_errors req).bind fun v =>
  let env := rb_hash_aset env rack_errors_val v
  (req_rack_multithread req).bind fun v =>
  let env := rb_hash_aset env rack_multithread_val v
  let env := rb_hash_aset env rack_multiprocess_val (Value.bool false)
  let env := rb_hash_aset env rack_run_once_val (Value.bool false)
  Except.ok env

def to_h (con_header_value : List Char → List Char → Option (List Char))
    (self : Option Req) : Except Fault Hash :=
  match self with
  | none => Except.error invalid_request
  | some r => request_env con_header_value (some r)

/-- The accessor to_s; `hash_to_s` is Ruby's `Hash#to_s`, a parameter. -/
def to_s (con_header_value : List Char → List Char → Option (List Char))
    (hash_to_s : Hash → List Char) (self : Option Req) : Except Fault Value :=
  (to_h con_header_value self).map fun h => Value.str (hash_to_s h)

/-! ## Notions used to state properties -/

/-- Two byte strings are equal ignoring ASCII case. -/
def eq_ignore_case (a b : List Char) : Prop := a.map Char.toLower = b.map Char.toLower

instance (a b : List Char) : Decidable (eq_ignore_case a b) := by
  unfold eq_ignore_case; infer_instance

/-- The header line `Name: Value\r\n`. -/
def header_line (name value : List Char) : List Char :=
  name ++ ": ".toList ++ value ++ "\r\n".toList

/-- The header block made of the lines `Name: Value\r\n` for the given pairs. -/
def header_block : List (List Char × List Char) → List Char
  | [] => []
  | (name, value) :: lines => header_line name value ++ header_block lines

/-- A byte that is no space, colon, CR or LF. -/
def plain_byte (c : Char) : Prop := c ≠ ' ' ∧ c ≠ ':' ∧ c ≠ '\r' ∧ c ≠ '\n'

instance (c : Char) : Decidable (plain_byte c) := by
  unfold plain_byte; infer_instance

/-- A well-formed line: the name is not empty and neither name nor value holds a
space, colon, CR or LF. -/
def well_formed_line (l : List Char × List Char) : Prop :=
  l.1 ≠ [] ∧ (∀ c ∈ l.1, plain_byte c) ∧ (∀ c ∈ l.2, plain_byte c)

instance (l : List Char × List Char) : Decidable (well_formed_line l) := by
  unfold well_formed_line; infer_instance

/-- The hash key add_header_value derives from a header name (see
`add_header_value_eq`). -/
def header_key (name : List Char) : List Char :=
  if eq_ignore_case name content_type then content_type_val
  else if eq_ignore_case name content_length then content_length_val
  else "HTTP_".toList ++ strncpy_bytes name (if 1019 ≤ name.length then 1018 else name.length)

/-- A line `Name: Value\r\n` in the wide sense: no CR or colon in the name, no CR in
the value (the value may hold spaces and colons). -/
def loose_line (l : List Char × List Char) : Prop :=
  '\r' ∉ l.1 ∧ ':' ∉ l.1 ∧ '\r' ∉ l.2

instance (l : List Char × List Char) : Decidable (loose_line l) := by
  unfold loose_line; infer_instance

/-- Between two calls the cursors stay ordered: `key` does not pass `h`, and once
`val` is set it does not pass `h` and `kend` is set, at or after `key`. -/
def cursors_ok (h key : Nat) (kend val : Option Nat) : Prop :=
  key ≤ h ∧ ∀ v, val = some v → v ≤ h ∧ ∃ ke, kend = some ke ∧ key ≤ ke

/-- The 13 fixed keys of the rack environment. -/
def fixed_keys : List (List Char) :=
  ["REQUEST_METHOD".toList, "SCRIPT_NAME".toList, "PATH_INFO".toList, "QUERY_STRING".toList,
    "SERVER_NAME".toList, "SERVER_PORT".toList, "rack.version".toList,
    "rack.url_scheme".toList, "rack.input".toList, "rack.errors".toList,
    "rack.multithread".toList, "rack.multiprocess".toList, "rack.run_once".toList]

/-- A header-derived key: CONTENT_TYPE, CONTENT_LENGTH, or a string that begins
with HTTP_. -/
def header_derived (k : List Char) : Prop :=
  k = "CONTENT_TYPE".toList ∨ k = "CONTENT_LENGTH".toList ∨ "HTTP_".toList <+: k

/-- A call whose four cursors are addresses inside a block of `n` bytes, in the
order key <= kend < val <= vend < n. -/
def call_in_range (n : Nat) (c : Call) : Prop :=
  ∃ ke v ve, c.kend = some ke ∧ c.val = some v ∧ c.vend = Ptr.addr ve ∧
    c.key ≤ ke ∧ ke < v ∧ v ≤ ve ∧ ve < n

theorem store_bytes_eq (bytes : List Char) : ∀ (a : List (Option Char)) (i : Nat),
    i + bytes.length ≤ a.length →
    store_bytes a i bytes
      = Except.ok (a.take i ++ bytes.map some ++ a.drop (i + bytes.length)) := by
  induction bytes with
  | nil => intro a i _; simp [store_bytes]
  | cons c cs ih =>
    intro a i h
    simp only [List.length_cons] at h
    have hi : i < a.length := by omega
    have h1 : i + 1 + cs.length ≤ (a.set i (some c)).length := by simp; omega
    simp only [store_bytes, store, hi, if_true, Except.bind, ih _ _ h1]
    congr 1
    rw [List.set_eq_take_append_cons_drop]
    have e1 : min i a.length = i := by omega
    have e2 : i + 1 - i = 1 := by omega
    have e3 : i + 1 + cs.length - i = cs.length + 1 := by omega
    have e4 : List.drop (i + 1 + cs.length) (List.take i a) = [] := by
      apply List.drop_eq_nil_of_le; simp; omega
    have e5 : i + (cs.length + 1) = i + 1 + cs.length := by omega
    simp [hi, List.take_append_eq_append_take, List.take_take, List.drop_append_eq_append_drop,
      e1, e2, e3, e4, e5]

theorem load_bytes_written (l : List Char) (rest : List (Option Char)) :
    load_bytes (l.map some ++ rest) l.length = Except.ok l := by
  induction l with
  | nil => simp [load_bytes]
  | cons c cs ih => simp [load_bytes, ih, Except.map]

theorem strncpy_bytes_length (n : Nat) :
    ∀ src : List Char, (strncpy_bytes src n).length = n := by
  induction n with
  | zero => intro src; simp [strncpy_bytes]
  | succ n ih =>
    intro src
    cases src with
    | nil => simp [strncpy_bytes]
    | cons c cs =>
      by_cases hc : c = NUL
      · simp [strncpy_bytes, hc]
      · simp [strncpy_bytes, hc, ih]

theorem strcpy_eq (a0 : List (Option Char)) (p : List Char) (hp : p.length = 5)
    (ha : 6 ≤ a0.length) :
    strcpy a0 p = Except.ok (p.map some ++ (some NUL :: a0.drop 6)) := by
  unfold strcpy
  rw [store_bytes_eq _ _ _ (by simp [hp]; omega)]
  simp [hp]

/-- The key buffer after strncpy and the store of the final NUL, read back:
the bytes are the literal followed by the bytes strncpy wrote, whatever the
array held behind them. -/
theorem hkey_read (r : List (Option Char)) (p key : List Char) (m : Nat) {β : Type}
    (f : List Char → Except Fault β) (hp : p.length = 5) (hm : m ≤ r.length) :
    ((strncpy (p.map some ++ (some NUL :: r)) 5 key m).bind fun hkey =>
      (store hkey (m + 5) NUL).bind fun hkey => (load_bytes hkey (m + 5)).bind f)
      = f (p ++ strncpy_bytes key m) := by
  have hl := strncpy_bytes_length m key
  have s2 : strncpy (p.map some ++ (some NUL :: r)) 5 key m
      = Except.ok ((p ++ strncpy_bytes key m).map some ++ (some NUL :: r).drop m) := by
    unfold strncpy
    rw [store_bytes_eq _ _ _ (by simp [hl, hp]; omega)]
    have e1 : List.take 5 (List.map some p ++ some NUL :: r) = p.map some := by
      rw [List.take_append_of_le_length (by simp [hp])]
      rw [List.take_of_length_le (by simp [hp])]
    have e2 : List.drop (5 + (strncpy_bytes key m).length)
        (List.map some p ++ some NUL :: r) = (some NUL :: r).drop m := by
      rw [hl]
      have : (5 : Nat) = (List.map some p).length := by simp [hp]
      rw [this, List.drop_append]
    rw [e1, e2]; simp
  obtain ⟨x, post, hpost⟩ : ∃ x post, (some NUL :: r).drop m = x :: post := by
    cases hq : (some NUL :: r).drop m with
    | nil =>
      have := congrArg List.length hq
      simp at this; omega
    | cons x post => exact ⟨x, post, rfl⟩
  have s3 : store ((p ++ strncpy_bytes key m).map some ++ x :: post) (m + 5) NUL
      = Except.ok ((p ++ strncpy_bytes key m).map some ++ some NUL :: post) := by
    have hlen : ((p ++ strncpy_bytes key m).map some).length = m + 5 := by
      simp [hl, hp]; omega
    unfold store
    rw [if_pos (by simp [hl, hp]; omega)]
    congr 1
    rw [← hlen, List.set_append_right _ _ (le_refl _)]
    simp
  have s4 : load_bytes ((p ++ strncpy_bytes key m).map some ++ some NUL :: post) (m + 5)
      = Except.ok (p ++ strncpy_bytes key m) := by
    have hlen : (p ++ strncpy_bytes key m).length = m + 5 := by simp [hl, hp]; omega
    rw [← hlen]; exact load_bytes_written _ _
  rw [s2]; simp only [Except.bind]
  rw [hpost, s3]; simp only [Except.bind]
  rw [s4]

theorem char_toNat_sub_ne_zero {a b : Char} (h : a ≠ b) :
    (a.toNat : Int) - (b.toNat : Int) ≠ 0 := by
  intro h0
  apply h
  have : a.toNat = b.toNat := by omega
  rw [← Char.ofNat_toNat a, ← Char.ofNat_toNat b, this]

theorem NUL_toLower : NUL.toLower = NUL := by decide

/-- The result of strncasecmp against a string without NUL, over its whole
length, is 0 exactly when the first bytes of the other string agree with it
after lower-casing. -/
theorem strncasecmp_eq_zero (s2 : List Char) (h2 : ∀ c ∈ s2, c.toLower ≠ NUL) :
    ∀ s1 : List Char, strncasecmp s1 s2 s2.length = 0 ↔
      (s1.take s2.length).map Char.toLower = s2.map Char.toLower := by
  induction s2 with
  | nil => intro s1; simp [strncasecmp]
  | cons c2 cs ih =>
    intro s1
    have hc2 : c2.toLower ≠ NUL := h2 c2 (by simp)
    have ih1 := ih (fun c hc => h2 c (by simp [hc]))
    cases s1 with
    | nil =>
      have hne : NUL ≠ c2.toLower := fun h => hc2 h.symm
      simp [strncasecmp, NUL_toLower, hne, char_toNat_sub_ne_zero hne]
    | cons c1 s1 =>
      by_cases he : c1.toLower = c2.toLower
      · have h1 : c1.toLower ≠ NUL := by rw [he]; exact hc2
        simp [strncasecmp, he, hc2, ih1 s1]
      · simp [strncasecmp, he, char_toNat_sub_ne_zero he]

theorem strncasecmp_content_type (key : List Char) :
    strncasecmp key content_type content_type.length = 0 ↔
      eq_ignore_case (key.take 12) content_type :=
  strncasecmp_eq_zero content_type (by decide) key

theorem strncasecmp_content_length (key : List Char) :
    strncasecmp key content_length content_length.length = 0 ↔
      eq_ignore_case (key.take 14) content_length :=
  strncasecmp_eq_zero content_length (by decide) key

theorem content_type_length : content_type.length = 12 := by decide
theorem content_length_length : content_length.length = 14 := by decide

theorem strncasecmp_content_type12 (key : List Char) :
    strncasecmp key content_type 12 = 0 ↔ eq_ignore_case (key.take 12) content_type :=
  strncasecmp_content_type key

theorem strncasecmp_content_length14 (key : List Char) :
    strncasecmp key content_length 14 = 0 ↔ eq_ignore_case (key.take 14) content_length :=
  strncasecmp_content_length key

theorem bind_ok {ε α β : Type} (a : α) (f : α → Except ε β) :
    (Except.ok a : Except ε α).bind f = f a := rfl

theorem rb_str_new_nat (ptr : List Char) (n : Nat) :
    rb_str_new ptr (n : Int) = Except.ok (Value.str (ptr.take n)) := by
  unfold rb_str_new
  rw [if_neg (by omega)]
  simp

theorem add_header_value_content_type_int (hh : Hash) (key val : List Char) (vlen : Int)
    (h : eq_ignore_case (key.take 12) content_type) :
    add_header_value hh key 12 val vlen
      = (rb_str_new val vlen).map fun v => rb_hash_aset hh content_type_val v := by
  have hc := (strncasecmp_content_type key).mpr h
  unfold add_header_value
  rw [if_pos ⟨by rw [content_type_length]; rfl, hc⟩]

theorem add_header_value_content_length_int (hh : Hash) (key val : List Char) (vlen : Int)
    (h : eq_ignore_case (key.take 14) content_length) :
    add_header_value hh key 14 val vlen
      = (rb_str_new val vlen).map fun v => rb_hash_aset hh content_length_val v := by
  have hc := (strncasecmp_content_length key).mpr h
  unfold add_header_value
  rw [if_neg (by rw [content_type_length]; intro h; omega),
    if_pos ⟨by rw [content_length_length]; rfl, hc⟩]

theorem add_header_value_http_int (hh : Hash) (key val : List Char) (klen : Nat) (vlen : Int)
    (h1 : ¬ (klen = 12 ∧ eq_ignore_case (key.take 12) content_type))
    (h2 : ¬ (klen = 14 ∧ eq_ignore_case (key.take 14) content_length)) :
    add_header_value hh key klen val vlen
      = (rb_str_new val vlen).map fun v => rb_hash_aset hh
          ("HTTP_".toList ++ strncpy_bytes key (if 1019 ≤ klen then 1018 else klen)) v := by
  unfold add_header_value
  rw [if_neg (by
      rw [content_type_length, strncasecmp_content_type12]
      intro h; exact h1 ⟨by omega, h.2⟩),
    if_neg (by
      rw [content_length_length, strncasecmp_content_length14]
      intro h; exact h2 ⟨by omega, h.2⟩)]
  have ha : (List.replicate 1024 (none : Option Char)).length = 1024 := List.length_replicate _ _
  generalize List.replicate 1024 (none : Option Char) = a0 at ha ⊢
  have hr : (a0.drop 6).length = 1018 := by rw [List.length_drop, ha]
  simp only []
  rw [strcpy_eq _ _ (by decide) (by omega), bind_ok]
  by_cases hk : 1019 ≤ klen
  · have e : ((1024 : Int) - 5 ≤ (klen : Int)) := by omega
    rw [if_pos e, if_pos hk, if_neg (by omega)]
    have e2 : ((1024 : Int) - 6).toNat = 1018 := by decide
    rw [e2, hkey_read _ _ _ _ _ (by decide) (by omega)]
  · have e : ¬ ((1024 : Int) - 5 ≤ (klen : Int)) := by omega
    rw [if_neg e, if_neg hk, if_neg (by omega)]
    rw [Int.toNat_ofNat, hkey_read _ _ _ _ _ (by decide) (by omega)]

theorem add_header_value_negative_klen (hh : Hash) (key val : List Char) (klen vlen : Int)
    (hneg : klen < 0) :
    add_header_value hh key klen val vlen = Except.error Fault.undefined := by
  unfold add_header_value
  rw [if_neg (by rw [content_type_length]; intro h; omega),
    if_neg (by rw [content_length_length]; intro h; omega)]
  have ha : (List.replicate 1024 (none : Option Char)).length = 1024 := List.length_replicate _ _
  generalize List.replicate 1024 (none : Option Char) = a0 at ha ⊢
  have e : ¬ ((1024 : Int) - 5 ≤ klen) := by omega
  simp only []
  rw [strcpy_eq _ _ (by decide) (by omega), bind_ok, if_neg e, if_pos hneg]

theorem add_header_value_content_type (hh : Hash) (key val : List Char) (vlen : Nat)
    (h : eq_ignore_case (key.take 12) content_type) :
    add_header_value hh key 12 val vlen
      = Except.ok (rb_hash_aset hh content_type_val (Value.str (val.take vlen))) := by
  rw [add_header_value_content_type_int hh key val vlen h, rb_str_new_nat]
  rfl

theorem add_header_value_content_length (hh : Hash) (key val : List Char) (vlen : Nat)
    (h : eq_ignore_case (key.take 14) content_length) :
    add_header_value hh key 14 val vlen
      = Except.ok (rb_hash_aset hh content_length_val (Value.str (val.take vlen))) := by
  rw [add_header_value_content_length_int hh key val vlen h, rb_str_new_nat]
  rfl

theorem add_header_value_http (hh : Hash) (key val : List Char) (klen vlen : Nat)
    (h1 : ¬ (klen = 12 ∧ eq_ignore_case (key.take 12) content_type))
    (h2 : ¬ (klen = 14 ∧ eq_ignore_case (key.take 14) content_length)) :
    add_header_value hh key klen val vlen
      = Except.ok (rb_hash_aset hh
          ("HTTP_".toList ++ strncpy_bytes key (if 1019 ≤ klen then 1018 else klen))
          (Value.str (val.take vlen))) := by
  rw [add_header_value_http_int hh key val klen vlen h1 h2, rb_str_new_nat]
  rfl

/-! ## Lemmas on the tokenizer loop -/

theorem fill_loop_cons (c : Char) (rest : List Char) (h key : Nat) (kend val : Option Nat)
    (vend : Ptr) :
    fill_loop (c :: rest) h key kend val vend =
      if c = ':' then fill_loop rest (h + 1) key (some h) (some (h + 1)) vend
      else if c = ' ' then
        match val with
        | some v => fill_loop rest (h + 1) key kend (some (v + 1)) vend
        | none => fill_loop rest (h + 1) (key + 1) kend val vend
      else if c = '\r' then
        match rest with
        | [] => [⟨key, kend, val, if val.isSome then Ptr.addr h else vend⟩]
        | c1 :: rest1 =>
          if c1 = '\n' then
            ⟨key, kend, val, if val.isSome then Ptr.addr h else vend⟩
              :: fill_loop rest1 (h + 2) (h + 2) none none Ptr.null
          else
            ⟨key, kend, val, if val.isSome then Ptr.addr h else vend⟩
              :: fill_loop (c1 :: rest1) (h + 1) (h + 1) none none Ptr.null
      else fill_loop rest (h + 1) key kend val vend := by
  cases rest <;> rfl

theorem fill_loop_nil (h key : Nat) (kend val : Option Nat) (vend : Ptr) :
    fill_loop [] h key kend val vend = [] := rfl

theorem fill_loop_inert (w : List Char) (hw : ∀ c ∈ w, c ≠ ':' ∧ c ≠ ' ' ∧ c ≠ '\r')
    (rest : List Char) (h key : Nat) (kend val : Option Nat) (vend : Ptr) :
    fill_loop (w ++ rest) h key kend val vend
      = fill_loop rest (h + w.length) key kend val vend := by
  induction w generalizing h with
  | nil => simp
  | cons c cs ih =>
    obtain ⟨h1, h2, h3⟩ := hw c (by simp)
    have ih1 := ih (fun c hc => hw c (by simp [hc])) (h + 1)
    rw [List.cons_append, fill_loop_cons, if_neg h1, if_neg h2, if_neg h3, ih1,
      List.length_cons]
    congr 1; omega

theorem plain_inert {w : List Char} (hw : ∀ c ∈ w, plain_byte c) :
    ∀ c ∈ w, c ≠ ':' ∧ c ≠ ' ' ∧ c ≠ '\r' :=
  fun c hc => ⟨(hw c hc).2.1, (hw c hc).1, (hw c hc).2.2.1⟩

theorem header_line_length (name value : List Char) :
    (header_line name value).length = name.length + 2 + value.length + 2 := by
  simp [header_line]; omega

theorem fill_loop_line (name value : List Char) (hn : ∀ c ∈ name, plain_byte c)
    (hv : ∀ c ∈ value, plain_byte c) (rest : List Char) (h : Nat) (kend : Option Nat)
    (vend : Ptr) :
    fill_loop (header_line name value ++ rest) h h kend none vend
      = ⟨h, some (h + name.length), some (h + name.length + 2),
          Ptr.addr (h + name.length + 2 + value.length)⟩
        :: fill_loop rest (h + (header_line name value).length)
            (h + (header_line name value).length) none none Ptr.null := by
  rw [header_line_length]
  unfold header_line
  have e : name ++ ": ".toList ++ value ++ "\r\n".toList ++ rest
      = name ++ (':' :: ' ' :: (value ++ ('\r' :: '\n' :: rest))) := by simp
  rw [e, fill_loop_inert name (plain_inert hn), fill_loop_cons, if_pos rfl,
    fill_loop_cons, if_neg (by decide), if_pos rfl]
  simp only []
  rw [fill_loop_inert value (plain_inert hv), fill_loop_cons, if_neg (by decide),
    if_neg (by decide), if_pos rfl]
  simp only [if_true, Option.isSome_some]
  have e1 : h + name.length + 1 + 1 = h + name.length + 2 := by omega
  have e2 : h + name.length + 1 + 1 + value.length + 2
      = h + (name.length + 2 + value.length + 2) := by omega
  rw [e1, e2]

theorem call_entry_line (pre name value rest : List Char) :
    call_entry (pre ++ (header_line name value ++ rest))
      ⟨pre.length, some (pre.length + name.length), some (pre.length + name.length + 2),
        Ptr.addr (pre.length + name.length + 2 + value.length)⟩ = some (name, value) := by
  unfold call_entry
  simp only []
  rw [if_pos ⟨by omega, by omega⟩]
  have e1 : pre.length + name.length - pre.length = name.length := by omega
  have e2 : pre.length + name.length + 2 + value.length - (pre.length + name.length + 2)
      = value.length := by omega
  have d1 : List.drop pre.length (pre ++ (header_line name value ++ rest))
      = name ++ (": ".toList ++ value ++ "\r\n".toList ++ rest) := by
    rw [List.drop_left]; simp [header_line]
  have d2 : List.drop (pre.length + name.length + 2) (pre ++ (header_line name value ++ rest))
      = value ++ ("\r\n".toList ++ rest) := by
    have e : pre ++ (header_line name value ++ rest)
        = (pre ++ name ++ ": ".toList) ++ (value ++ ("\r\n".toList ++ rest)) := by
      simp [header_line]
    have l : pre.length + name.length + 2 = (pre ++ name ++ ": ".toList).length := by simp; omega
    rw [e, l, List.drop_left]
  rw [e1, e2, d1, d2, List.take_left, List.take_left]

theorem fill_loop_block (lines : List (List Char × List Char))
    (hwf : ∀ l ∈ lines, well_formed_line l) :
    ∀ (pre : List Char) (kend : Option Nat) (vend : Ptr),
      (fill_loop (header_block lines) pre.length pre.length kend none vend).map
          (call_entry (pre ++ header_block lines)) = lines.map some := by
  induction lines with
  | nil => intro pre kend vend; simp [header_block, fill_loop_nil]
  | cons l ls ih =>
    intro pre kend vend
    obtain ⟨name, value⟩ := l
    obtain ⟨_, hn, hv⟩ := hwf (name, value) (by simp)
    have ih1 := ih (fun l hl => hwf l (by simp [hl])) (pre ++ header_line name value) none Ptr.null
    simp only [header_block]
    rw [fill_loop_line name value hn hv, List.map_cons, call_entry_line, List.map_cons]
    congr 1
    rw [List.length_append, List.append_assoc] at ih1
    exact ih1

theorem eq_ignore_case_length {a b : List Char} (h : eq_ignore_case a b) :
    a.length = b.length := by
  have := congrArg List.length h
  simpa using this

theorem strncpy_bytes_append (m : Nat) : ∀ (name rest : List Char), m ≤ name.length →
    strncpy_bytes (name ++ rest) m = strncpy_bytes name m := by
  induction m with
  | zero => intro name rest _; simp [strncpy_bytes]
  | succ m ih =>
    intro name rest h
    cases name with
    | nil => simp at h
    | cons c cs =>
      simp only [List.length_cons] at h
      by_cases hc : c = NUL
      · simp [strncpy_bytes, hc]
      · simp [strncpy_bytes, hc, ih cs rest (by omega)]

theorem strncpy_bytes_no_nul : ∀ (name : List Char), NUL ∉ name →
    strncpy_bytes name name.length = name := by
  intro name
  induction name with
  | nil => intro _; simp [strncpy_bytes]
  | cons c cs ih =>
    intro h
    have hc : c ≠ NUL := fun e => h (by simp [e])
    have hcs : NUL ∉ cs := fun e => h (by simp [e])
    simp [strncpy_bytes, hc, ih hcs]

/-- What add_header_value does with a name of `name.length` bytes and a value of
`val.length` bytes, whatever follows them in memory. -/
theorem add_header_value_eq (hh : Hash) (name rest val rest1 : List Char) :
    add_header_value hh (name ++ rest) name.length (val ++ rest1) val.length
      = Except.ok (rb_hash_aset hh (header_key name) (Value.str val)) := by
  unfold header_key
  by_cases h1 : eq_ignore_case name content_type
  · have hl : name.length = 12 := eq_ignore_case_length h1
    rw [if_pos h1, hl, show ((12 : Nat) : Int) = 12 from rfl,
      add_header_value_content_type hh _ _ _ (by rw [← hl, List.take_left]; exact h1),
      List.take_left]
  · rw [if_neg h1]
    by_cases h2 : eq_ignore_case name content_length
    · have hl : name.length = 14 := eq_ignore_case_length h2
      rw [if_pos h2, hl, show ((14 : Nat) : Int) = 14 from rfl,
        add_header_value_content_length hh _ _ _ (by rw [← hl, List.take_left]; exact h2),
        List.take_left]
    · rw [if_neg h2, add_header_value_http hh _ _ _ _
        (by intro h; apply h1; have := h.2; rwa [← h.1, List.take_left] at this)
        (by intro h; apply h2; have := h.2; rwa [← h.1, List.take_left] at this),
        List.take_left, strncpy_bytes_append _ _ _ (by split <;> omega)]

theorem call_add_header_value_line (hh : Hash) (pre name value rest : List Char) :
    call_add_header_value (pre ++ (header_line name value ++ rest)) hh
      ⟨pre.length, some (pre.length + name.length), some (pre.length + name.length + 2),
        Ptr.addr (pre.length + name.length + 2 + value.length)⟩
      = add_header_value hh name name.length value value.length := by
  unfold call_add_header_value
  simp only []
  have e1 : ((pre.length + name.length : Nat) : Int) - (pre.length : Int) = (name.length : Int) := by
    omega
  have e2 : ((pre.length + name.length + 2 + value.length : Nat) : Int)
      - ((pre.length + name.length + 2 : Nat) : Int) = (value.length : Int) := by omega
  have d1 : List.drop pre.length (pre ++ (header_line name value ++ rest))
      = name ++ (": ".toList ++ value ++ "\r\n".toList ++ rest) := by
    rw [List.drop_left]; simp [header_line]
  have d2 : List.drop (pre.length + name.length + 2) (pre ++ (header_line name value ++ rest))
      = value ++ ("\r\n".toList ++ rest) := by
    have e : pre ++ (header_line name value ++ rest)
        = (pre ++ name ++ ": ".toList) ++ (value ++ ("\r\n".toList ++ rest)) := by
      simp [header_line]
    have l : pre.length + name.length + 2 = (pre ++ name ++ ": ".toList).length := by
      simp; omega
    rw [e, l, List.drop_left]
  rw [e1, e2, d1, d2, add_header_value_eq]
  have := add_header_value_eq hh name [] value []
  simp only [List.append_nil] at this
  rw [this]

theorem foldlM_block (lines : List (List Char × List Char))
    (hwf : ∀ l ∈ lines, well_formed_line l) :
    ∀ (pre : List Char) (kend : Option Nat) (vend : Ptr) (hash : Hash),
      (fill_loop (header_block lines) pre.length pre.length kend none vend).foldlM
          (call_add_header_value (pre ++ header_block lines)) hash
        = lines.foldlM (fun hh l => add_header_value hh l.1 l.1.length l.2 l.2.length) hash := by
  induction lines with
  | nil => intro pre kend vend hash; simp [header_block, fill_loop_nil]
  | cons l ls ih =>
    intro pre kend vend hash
    obtain ⟨name, value⟩ := l
    obtain ⟨_, hn, hv⟩ := hwf (name, value) (by simp)
    have ih1 := ih (fun l hl => hwf l (by simp [hl])) (pre ++ header_line name value) none Ptr.null
    simp only [header_block]
    rw [fill_loop_line name value hn hv, List.foldlM_cons, List.foldlM_cons,
      call_add_header_value_line]
    congr 1
    funext hash1
    rw [List.length_append, List.append_assoc] at ih1
    exact ih1 hash1

theorem foldlM_add_header_value (lines : List (List Char × List Char)) : ∀ hash : Hash,
    lines.foldlM (fun hh l => add_header_value hh l.1 l.1.length l.2 l.2.length) hash
      = Except.ok (lines.foldl (fun hh l => rb_hash_aset hh (header_key l.1) (Value.str l.2)) hash) := by
  induction lines with
  | nil => intro hash; rfl
  | cons l ls ih =>
    intro hash
    have := add_header_value_eq hash l.1 [] l.2 []
    simp only [List.append_nil] at this
    rw [List.foldlM_cons, this, List.foldl_cons]
    exact ih _

theorem fill_headers_block (r : Req) (lines : List (List Char × List Char))
    (hr : r.header = header_block lines) (hwf : ∀ l ∈ lines, well_formed_line l) (hash : Hash) :
    fill_headers (some r) hash
      = Except.ok (lines.foldl (fun hh l => rb_hash_aset hh (header_key l.1) (Value.str l.2)) hash) := by
  have := foldlM_block lines hwf [] (some 0) Ptr.uninit hash
  simp only [List.length_nil, List.nil_append] at this
  rw [← foldlM_add_header_value, ← this]
  simp only [fill_headers, header_calls, hr]

/-! ## The tokenizer on well-formed blocks -/

/-- C1: for a header block made of lines Name ++ ": " ++ Value ++ "\r\n", each name
non-empty and no name or value holding a space, colon, CR or LF, the tokenizer
emits exactly one entry per line, in input order, the i-th entry being
(Name_i, Value_i); and fill_headers hands exactly these names and values, in
this order, to add_header_value. -/
theorem fill_headers_emits_lines (lines : List (List Char × List Char))
    (hwf : ∀ l ∈ lines, well_formed_line l) :
    header_entries (header_block lines) = lines.map some ∧
    ∀ (r : Req) (hash : Hash), r.header = header_block lines →
      fill_headers (some r) hash
        = lines.foldlM (fun hh l => add_header_value hh l.1 l.1.length l.2 l.2.length) hash := by
  constructor
  · have := fill_loop_block lines hwf [] (some 0) Ptr.uninit
    simpa [header_entries, header_calls] using this
  · intro r hash hr
    have := foldlM_block lines hwf [] (some 0) Ptr.uninit hash
    simp only [List.length_nil, List.nil_append] at this
    rw [← this]
    simp only [fill_headers, header_calls, hr]

theorem fill_headers_emits_lines_witness :
    header_entries (header_block
        [("Host".toList, "example.com".toList), ("X-Custom".toList, "42".toList),
          ("Host".toList, [])])
      = [some ("Host".toList, "example.com".toList), some ("X-Custom".toList, "42".toList),
          some ("Host".toList, [])] :=
  (fill_headers_emits_lines
    [("Host".toList, "example.com".toList), ("X-Custom".toList, "42".toList),
      ("Host".toList, [])] (by decide)).1

theorem fill_loop_value (w : List Char) (hw : ∀ c ∈ w, c ≠ ':' ∧ c ≠ '\r') :
    ∀ (rest : List Char) (h key : Nat) (kend : Option Nat) (v : Nat) (vend : Ptr),
      fill_loop (w ++ rest) h key kend (some v) vend
        = fill_loop rest (h + w.length) key kend (some (v + w.count ' ')) vend := by
  induction w with
  | nil => intro rest h key kend v vend; rfl
  | cons c cs ih =>
    intro rest h key kend v vend
    obtain ⟨h1, h3⟩ := hw c (by simp)
    have ih1 := ih (fun c hc => hw c (by simp [hc]))
    have hlen : h + (c :: cs).length = h + 1 + cs.length := by simp; omega
    rw [List.cons_append, fill_loop_cons, if_neg h1, hlen]
    by_cases h2 : c = ' '
    · subst h2
      rw [if_pos rfl]
      simp only []
      rw [ih1, List.count_cons_self]
      congr 2; omega
    · rw [if_neg h2, if_neg h3, ih1, List.count_cons_of_ne (fun e => h2 e.symm)]

/-- What the tokenizer emits for one line Name ++ ":" ++ S ++ Value ++ "\r\n" (no
space, colon or CR in the name, S a run of spaces, no colon or CR in the value):
the name, and the value without its first k bytes, k being the number of spaces
in the value. -/
theorem header_entries_value_spaces (name S value : List Char)
    (hn : ∀ c ∈ name, c ≠ ':' ∧ c ≠ ' ' ∧ c ≠ '\r') (hS : ∀ c ∈ S, c = ' ')
    (hv : ∀ c ∈ value, c ≠ ':' ∧ c ≠ '\r') :
    header_entries (name ++ ':' :: (S ++ value) ++ "\r\n".toList)
      = [some (name, value.drop (value.count ' '))] := by
  have hw : ∀ c ∈ S ++ value, c ≠ ':' ∧ c ≠ '\r' := by
    intro c hc
    rcases List.mem_append.mp hc with h | h
    · rw [hS c h]; decide
    · exact hv c h
  have hcS : S.count ' ' = S.length := List.count_eq_length.mpr (fun c hc => (hS c hc).symm)
  have hcnt : value.count ' ' ≤ value.length := List.count_le_length _ _
  have e : name ++ ':' :: (S ++ value) ++ "\r\n".toList
      = name ++ (':' :: ((S ++ value) ++ ('\r' :: '\n' :: []))) := by simp
  have hcalls : header_calls (name ++ ':' :: (S ++ value) ++ "\r\n".toList)
      = [⟨0, some name.length, some (name.length + 1 + S.length + value.count ' '),
          Ptr.addr (name.length + 1 + S.length + value.length)⟩] := by
    unfold header_calls
    rw [e, fill_loop_inert name hn, fill_loop_cons, if_pos rfl, fill_loop_value _ hw,
      fill_loop_cons, if_neg (by decide), if_neg (by decide), if_pos rfl]
    simp only [if_true, Option.isSome_some, fill_loop_nil, List.count_append, hcS,
      List.length_append]
    congr 3 <;> omega
  unfold header_entries
  rw [hcalls, List.map_cons, List.map_nil]
  unfold call_entry
  simp only []
  rw [if_pos ⟨by omega, by omega⟩]
  have d1 : List.take (name.length - 0) (List.drop 0 (name ++ ':' :: (S ++ value) ++ "\r\n".toList))
      = name := by
    simp
  have d2 : List.take (name.length + 1 + S.length + value.length
        - (name.length + 1 + S.length + value.count ' '))
      (List.drop (name.length + 1 + S.length + value.count ' ')
        (name ++ ':' :: (S ++ value) ++ "\r\n".toList)) = value.drop (value.count ' ') := by
    have e2 : name ++ ':' :: (S ++ value) ++ "\r\n".toList
        = (name ++ ':' :: S) ++ (value ++ "\r\n".toList) := by simp
    have l2 : name.length + 1 + S.length + value.count ' '
        = (name ++ ':' :: S).length + value.count ' ' := by simp; omega
    have l3 : name.length + 1 + S.length + value.length
        - ((name ++ ':' :: S).length + value.count ' ')
        = (value.drop (value.count ' ')).length := by simp; omega
    rw [e2, l2, List.drop_append, List.drop_append_of_le_length hcnt, l3, List.take_left]
  rw [d1, d2]

/-- C2: the header line `User-Agent: foo bar\r\n` has the form Name ++ ":" ++ S ++
Value ++ "\r\n" with S one space and Value `foo bar`, which does not begin with a
space; the tokenizer emits the value `oo bar` for it, not `foo bar`: the interior
space moves the start of the value, and headers stores `oo bar`. -/
theorem header_entries_interior_space :
    "User-Agent: foo bar\r\n".toList
      = "User-Agent".toList ++ [':'] ++ [' '] ++ "foo bar".toList ++ "\r\n".toList ∧
    header_entries "User-Agent: foo bar\r\n".toList
      = [some ("User-Agent".toList, "oo bar".toList)] ∧
    ∀ r : Req, r.header = "User-Agent: foo bar\r\n".toList →
      headers (some r)
        = Except.ok [("HTTP_User-Agent".toList, Value.str "oo bar".toList)] := by
  refine ⟨by decide, by decide, ?_⟩
  intro r hr
  have hc : header_calls "User-Agent: foo bar\r\n".toList
      = [⟨0, some 10, some 13, Ptr.addr 19⟩] := by decide
  have ha := add_header_value_eq [] "User-Agent".toList ": foo bar\r\n".toList
    "oo bar".toList "\r\n".toList
  unfold headers fill_headers
  simp only [hr, hc, List.foldlM_cons, List.foldlM_nil, call_add_header_value]
  have e1 : List.drop 0 "User-Agent: foo bar\r\n".toList
      = "User-Agent".toList ++ ": foo bar\r\n".toList := by decide
  have e2 : List.drop 13 "User-Agent: foo bar\r\n".toList
      = "oo bar".toList ++ "\r\n".toList := by decide
  have e3 : (((10 : Nat) : Int) - ((0 : Nat) : Int)) = (("User-Agent".toList.length : Nat) : Int) := by
    decide
  have e4 : (((19 : Nat) : Int) - ((13 : Nat) : Int)) = (("oo bar".toList.length : Nat) : Int) := by
    decide
  rw [e1, e2, e3, e4, ha]
  exact congrArg Except.ok (by decide)

/-! ## Name classification -/

theorem headers_block (r : Req) (lines : List (List Char × List Char))
    (hr : r.header = header_block lines) (hwf : ∀ l ∈ lines, well_formed_line l) :
    headers (some r)
      = Except.ok (lines.foldl (fun hh l => rb_hash_aset hh (header_key l.1) (Value.str l.2)) []) := by
  unfold headers
  exact fill_headers_block r lines hr hwf []

theorem header_key_ne_content_type {name : List Char} (h : ¬ eq_ignore_case name content_type) :
    header_key name ≠ content_type_val := by
  unfold header_key
  rw [if_neg h]
  by_cases h1 : eq_ignore_case name content_length
  · rw [if_pos h1]; decide
  · rw [if_neg h1]
    intro e
    have := congrArg List.head? e
    simp at this
    revert this; decide

theorem header_key_ne_content_length {name : List Char}
    (h : ¬ eq_ignore_case name content_length) :
    header_key name ≠ content_length_val := by
  unfold header_key
  by_cases h1 : eq_ignore_case name content_type
  · rw [if_pos h1]; decide
  · rw [if_neg h1, if_neg h]
    intro e
    have := congrArg List.head? e
    simp at this
    revert this; decide

/-- C3: add_header_value stores the value under the fixed key CONTENT_TYPE exactly
when the name equals "Content-Type" ignoring ASCII case (then it has 12 bytes), and
under CONTENT_LENGTH exactly when the name equals "Content-Length" ignoring ASCII
case (14 bytes); the key carries no HTTP_ and the stored value is the value bytes
unchanged, whatever follows name and value in memory.  The header blocks
`Content-Type: text/plain\r\n` and `CONTENT-TYPE: text/plain\r\n` both give the single
entry CONTENT_TYPE -> "text/plain". -/
theorem add_header_value_content_keys (hh : Hash) (name rest val rest1 : List Char) :
    (eq_ignore_case name content_type →
      name.length = 12 ∧
      add_header_value hh (name ++ rest) name.length (val ++ rest1) val.length
        = Except.ok (rb_hash_aset hh "CONTENT_TYPE".toList (Value.str val))) ∧
    (eq_ignore_case name content_length →
      name.length = 14 ∧
      add_header_value hh (name ++ rest) name.length (val ++ rest1) val.length
        = Except.ok (rb_hash_aset hh "CONTENT_LENGTH".toList (Value.str val))) ∧
    (add_header_value [] (name ++ rest) name.length (val ++ rest1) val.length
        = Except.ok [("CONTENT_TYPE".toList, Value.str val)]
      ↔ eq_ignore_case name content_type) ∧
    (add_header_value [] (name ++ rest) name.length (val ++ rest1) val.length
        = Except.ok [("CONTENT_LENGTH".toList, Value.str val)]
      ↔ eq_ignore_case name content_length) ∧
    (∀ r : Req, r.header = "Content-Type: text/plain\r\n".toList →
      headers (some r) = Except.ok [("CONTENT_TYPE".toList, Value.str "text/plain".toList)]) ∧
    (∀ r : Req, r.header = "CONTENT-TYPE: text/plain\r\n".toList →
      headers (some r) = Except.ok [("CONTENT_TYPE".toList, Value.str "text/plain".toList)]) := by
  have hE := add_header_value_eq
  refine ⟨?_, ?_, ?_, ?_, ?_, ?_⟩
  · intro h
    refine ⟨eq_ignore_case_length h, ?_⟩
    rw [hE, header_key, if_pos h]; rfl
  · intro h
    have h1 : ¬ eq_ignore_case name content_type := by
      intro h1
      have a := eq_ignore_case_length h
      have b := eq_ignore_case_length h1
      rw [content_type_length] at b
      rw [content_length_length] at a
      omega
    refine ⟨eq_ignore_case_length h, ?_⟩
    rw [hE, header_key, if_neg h1, if_pos h]; rfl
  · rw [hE]
    constructor
    · intro h
      by_contra hn
      apply header_key_ne_content_type hn
      simp only [rb_hash_aset, Except.ok.injEq, List.cons.injEq, Prod.mk.injEq] at h
      exact h.1.1
    · intro h
      rw [header_key, if_pos h]; rfl
  · rw [hE]
    constructor
    · intro h
      by_contra hn
      apply header_key_ne_content_length hn
      simp only [rb_hash_aset, Except.ok.injEq, List.cons.injEq, Prod.mk.injEq] at h
      exact h.1.1
    · intro h
      have h1 : ¬ eq_ignore_case name content_type := by
        intro h1
        have a := eq_ignore_case_length h
        have b := eq_ignore_case_length h1
        rw [content_type_length] at b
        rw [content_length_length] at a
        omega
      rw [header_key, if_neg h1, if_pos h]; rfl
  · intro r hr
    rw [headers_block r [("Content-Type".toList, "text/plain".toList)] (by rw [hr]; decide)
      (by decide)]
    exact congrArg Except.ok (by decide)
  · intro r hr
    rw [headers_block r [("CONTENT-TYPE".toList, "text/plain".toList)] (by rw [hr]; decide)
      (by decide)]
    exact congrArg Except.ok (by decide)

theorem add_header_value_content_keys_witness :
    ("CONTENT-TYPE".toList).length = 12 ∧
    add_header_value [] ("CONTENT-TYPE".toList ++ ": text/plain".toList) "CONTENT-TYPE".toList.length
        ("text/plain".toList ++ "\r\n".toList) "text/plain".toList.length
      = Except.ok (rb_hash_aset [] "CONTENT_TYPE".toList (Value.str "text/plain".toList)) :=
  (add_header_value_content_keys [] "CONTENT-TYPE".toList ": text/plain".toList
    "text/plain".toList "\r\n".toList).1 (by decide)

theorem strncpy_bytes_self : ∀ (name : List Char),
    strncpy_bytes name name.length
      = name.takeWhile (fun c => c != NUL)
        ++ List.replicate (name.length - (name.takeWhile (fun c => c != NUL)).length) NUL := by
  intro name
  induction name with
  | nil => simp [strncpy_bytes]
  | cons c cs ih =>
    by_cases hc : c = NUL
    · simp [strncpy_bytes, hc]
    · simp [strncpy_bytes, hc, ih]

/-- C4 (amended): for every header name of at most 1018 bytes that equals neither
"Content-Type" nor "Content-Length" ignoring case, the key add_header_value
produces is "HTTP_" followed by the name's bytes up to its first NUL byte and
then NUL bytes up to the length of the name; so for a name without NUL byte the
key is "HTTP_" followed by the name unchanged (no case change, no hyphen to
underscore), and `X-Custom: 42\r\n` gives the entry "HTTP_X-Custom" -> "42". -/
theorem add_header_value_http_key (hh : Hash) (name rest val rest1 : List Char)
    (hlen : name.length ≤ 1018) (h1 : ¬ eq_ignore_case name content_type)
    (h2 : ¬ eq_ignore_case name content_length) :
    add_header_value hh (name ++ rest) name.length (val ++ rest1) val.length
      = Except.ok (rb_hash_aset hh
          ("HTTP_".toList ++ (name.takeWhile (fun c => c != NUL)
            ++ List.replicate (name.length - (name.takeWhile (fun c => c != NUL)).length) NUL))
          (Value.str val)) ∧
    (NUL ∉ name →
      add_header_value hh (name ++ rest) name.length (val ++ rest1) val.length
        = Except.ok (rb_hash_aset hh ("HTTP_".toList ++ name) (Value.str val))) ∧
    (∀ r : Req, r.header = "X-Custom: 42\r\n".toList →
      headers (some r) = Except.ok [("HTTP_X-Custom".toList, Value.str "42".toList)]) := by
  have hk : header_key name = "HTTP_".toList ++ strncpy_bytes name name.length := by
    rw [header_key, if_neg h1, if_neg h2, if_neg (by omega)]
  refine ⟨?_, ?_, ?_⟩
  · rw [add_header_value_eq, hk, strncpy_bytes_self]
  · intro hn
    rw [add_header_value_eq, hk, strncpy_bytes_no_nul name hn]
  · intro r hr
    rw [headers_block r [("X-Custom".toList, "42".toList)] (by rw [hr]; decide) (by decide)]
    exact congrArg Except.ok (by decide)

theorem add_header_value_http_key_witness :
    add_header_value [] ("X-Custom".toList ++ ": 42\r\n".toList) "X-Custom".toList.length
        ("42".toList ++ "\r\n".toList) "42".toList.length
      = Except.ok (rb_hash_aset [] ("HTTP_".toList ++ "X-Custom".toList) (Value.str "42".toList)) :=
  (add_header_value_http_key [] "X-Custom".toList ": 42\r\n".toList "42".toList "\r\n".toList
    (by decide) (by decide) (by decide)).2.1 (by decide)

/-- C4 fails as stated: the three byte name a, NUL, b is within the length bound
and equals neither special name, yet its key is "HTTP_" followed by a, NUL, NUL,
which is not "HTTP_" followed by the name. -/
theorem add_header_value_nul_name :
    (['a', NUL, 'b'] : List Char).length ≤ 1018 ∧
    ¬ eq_ignore_case ['a', NUL, 'b'] content_type ∧
    ¬ eq_ignore_case ['a', NUL, 'b'] content_length ∧
    add_header_value [] ['a', NUL, 'b'] 3 ['4', '2'] 2
      = Except.ok [("HTTP_".toList ++ ['a', NUL, NUL], Value.str ['4', '2'])] ∧
    add_header_value [] ['a', NUL, 'b'] 3 ['4', '2'] 2
      ≠ Except.ok [("HTTP_".toList ++ ['a', NUL, 'b'], Value.str ['4', '2'])] := by
  have e := add_header_value_eq [] ['a', NUL, 'b'] [] ['4', '2'] []
  simp only [List.append_nil] at e
  have e1 : add_header_value [] ['a', NUL, 'b'] 3 ['4', '2'] 2
      = Except.ok [("HTTP_".toList ++ ['a', NUL, NUL], Value.str ['4', '2'])] := by
    rw [show (3 : Int) = (([ 'a', NUL, 'b'] : List Char).length : Int) from rfl,
      show (2 : Int) = (([ '4', '2'] : List Char).length : Int) from rfl, e]
    exact congrArg Except.ok (by decide)
  refine ⟨by decide, by decide, by decide, e1, ?_⟩
  rw [e1]
  intro h
  have h2 := Except.ok.inj h
  revert h2
  decide

/-! ## The tokenizer on blocks of lines in the wide sense -/

theorem well_formed_loose {l : List Char × List Char} (h : well_formed_line l) :
    loose_line l := by
  obtain ⟨_, hn, hv⟩ := h
  refine ⟨?_, ?_, ?_⟩
  · intro hm; exact (hn _ hm).2.2.1 rfl
  · intro hm; exact (hn _ hm).2.1 rfl
  · intro hm; exact (hv _ hm).2.2.1 rfl

theorem add_header_value_nonneg (hh : Hash) (key val : List Char) (n m : Nat) :
    ∃ h1, add_header_value hh key n val m = Except.ok h1 := by
  by_cases c1 : n = 12 ∧ eq_ignore_case (key.take 12) content_type
  · obtain ⟨rfl, c1⟩ := c1
    exact ⟨_, add_header_value_content_type hh key val m c1⟩
  · by_cases c2 : n = 14 ∧ eq_ignore_case (key.take 14) content_length
    · obtain ⟨rfl, c2⟩ := c2
      exact ⟨_, add_header_value_content_length hh key val m c2⟩
    · exact ⟨_, add_header_value_http hh key val n m c1 c2⟩

theorem fill_loop_no_cr (w : List Char) (hw : '\r' ∉ w) :
    ∀ (rest : List Char) (h key : Nat) (kend val : Option Nat) (vend : Ptr),
      cursors_ok h key kend val →
      ∃ key1 kend1 val1,
        fill_loop (w ++ rest) h key kend val vend
          = fill_loop rest (h + w.length) key1 kend1 val1 vend ∧
        cursors_ok (h + w.length) key1 kend1 val1 ∧
        ((val.isSome ∨ ':' ∈ w) → val1.isSome) := by
  induction w with
  | nil =>
    intro rest h key kend val vend hc
    exact ⟨key, kend, val, rfl, hc, fun hs => by simpa using hs⟩
  | cons c cs ih =>
    intro rest h key kend val vend hc
    have hcr : c ≠ '\r' := fun e => hw (by simp [e])
    have hcs : '\r' ∉ cs := fun e => hw (by simp [e])
    have hlen : h + (c :: cs).length = h + 1 + cs.length := by simp; omega
    rw [List.cons_append, fill_loop_cons, hlen]
    by_cases h1 : c = ':'
    · rw [if_pos h1]
      obtain ⟨k1, ke1, v1, e, inv, hs⟩ := ih hcs rest (h + 1) key (some h) (some (h + 1)) vend
        ⟨by have := hc.1; omega, fun v hv => by
          cases hv
          exact ⟨Nat.le_refl _, h, rfl, hc.1⟩⟩
      exact ⟨k1, ke1, v1, e, inv, fun _ => hs (Or.inl rfl)⟩
    · rw [if_neg h1]
      by_cases h2 : c = ' '
      · rw [if_pos h2]
        cases val with
        | some v =>
          obtain ⟨hv1, ke, hke, hkey⟩ := hc.2 v rfl
          obtain ⟨k1, ke1, v1, e, inv, hs⟩ := ih hcs rest (h + 1) key kend (some (v + 1)) vend
            ⟨by have := hc.1; omega, fun v2 hv2 => by
              cases hv2
              exact ⟨by omega, ke, hke, hkey⟩⟩
          exact ⟨k1, ke1, v1, e, inv, fun _ => hs (Or.inl rfl)⟩
        | none =>
          obtain ⟨k1, ke1, v1, e, inv, hs⟩ := ih hcs rest (h + 1) (key + 1) kend none vend
            ⟨by have := hc.1; omega, fun v2 hv2 => by cases hv2⟩
          refine ⟨k1, ke1, v1, e, inv, fun hor => hs ?_⟩
          rcases hor with h3 | h3
          · cases h3
          · rcases List.mem_cons.mp h3 with h4 | h4
            · exact absurd h4.symm h1
            · exact Or.inr h4
      · rw [if_neg h2, if_neg hcr]
        obtain ⟨k1, ke1, v1, e, inv, hs⟩ := ih hcs rest (h + 1) key kend val vend
          ⟨by have := hc.1; omega, fun v2 hv2 => by
            obtain ⟨a, ke, b, d⟩ := hc.2 v2 hv2
            exact ⟨by omega, ke, b, d⟩⟩
        refine ⟨k1, ke1, v1, e, inv, fun hor => hs ?_⟩
        rcases hor with h3 | h3
        · exact Or.inl h3
        · rcases List.mem_cons.mp h3 with h4 | h4
          · exact absurd h4.symm h1
          · exact Or.inr h4

theorem foldlM_loose_block (header : List Char) (lines : List (List Char × List Char))
    (hl : ∀ l ∈ lines, loose_line l) :
    ∀ (h key : Nat) (kend : Option Nat) (vend : Ptr) (hash : Hash), key ≤ h →
      ∃ h1, (fill_loop (header_block lines) h key kend none vend).foldlM
          (call_add_header_value header) hash = Except.ok h1 := by
  induction lines with
  | nil =>
    intro h key kend vend hash _
    exact ⟨hash, rfl⟩
  | cons l ls ih =>
    intro h key kend vend hash hkey
    obtain ⟨name, value⟩ := l
    obtain ⟨hn, _, hv⟩ := hl (name, value) (by simp)
    have ih1 := ih (fun l hl1 => hl l (by simp [hl1]))
    have hw : '\r' ∉ name ++ ':' :: ' ' :: value := by
      intro hm
      rcases List.mem_append.mp hm with h1 | h1
      · exact hn h1
      · rcases List.mem_cons.mp h1 with h2 | h2
        · revert h2; decide
        · rcases List.mem_cons.mp h2 with h3 | h3
          · revert h3; decide
          · exact hv h3
    have e : header_block ((name, value) :: ls)
        = (name ++ ':' :: ' ' :: value) ++ ('\r' :: '\n' :: header_block ls) := by
      simp [header_block, header_line]
    obtain ⟨k1, ke1, v1, e1, inv, hs⟩ := fill_loop_no_cr _ hw ('\r' :: '\n' :: header_block ls)
      h key kend none vend ⟨hkey, fun v hv => by cases hv⟩
    have hsome := hs (Or.inr (by simp))
    obtain ⟨v, rfl⟩ := Option.isSome_iff_exists.mp hsome
    obtain ⟨hv1, ke, rfl, hke⟩ := inv.2 v rfl
    rw [e, e1, fill_loop_cons, if_neg (by decide), if_neg (by decide), if_pos rfl]
    simp only [if_true, Option.isSome_some]
    rw [List.foldlM_cons]
    have d1 : ((ke : Int) - (k1 : Int)) = ((ke - k1 : Nat) : Int) := by omega
    have d2 : (((h + (name ++ ':' :: ' ' :: value).length : Nat) : Int) - (v : Int))
        = ((h + (name ++ ':' :: ' ' :: value).length - v : Nat) : Int) := by omega
    have hcall : ∃ hm, call_add_header_value header hash
        ⟨k1, some ke, some v, Ptr.addr (h + (name ++ ':' :: ' ' :: value).length)⟩
        = Except.ok hm := by
      unfold call_add_header_value
      simp only []
      rw [d1, d2]
      exact add_header_value_nonneg _ _ _ _ _
    obtain ⟨hm, hcall⟩ := hcall
    rw [hcall]
    exact ih1 _ _ none Ptr.null hm (Nat.le_refl _)

/-- The function fill_headers returns for every block of lines in the wide sense. -/
theorem fill_headers_loose_ok (r : Req) (lines : List (List Char × List Char))
    (hr : r.header = header_block lines) (hl : ∀ l ∈ lines, loose_line l) (hash : Hash) :
    ∃ h1, fill_headers (some r) hash = Except.ok h1 := by
  unfold fill_headers header_calls
  simp only [hr]
  exact foldlM_loose_block _ lines hl 0 0 (some 0) Ptr.uninit hash (Nat.le_refl _)

/-! ## Path and host derivations -/

/-- C5: for every valid request, when the path is empty or exactly "/"
req_script_name returns "" and req_path_info returns "/"; for every other path
req_script_name returns the path bytes unchanged and req_path_info returns "". -/
theorem req_script_name_path_info (r : Req) :
    ((r.path = [] ∨ r.path = ['/']) →
      req_script_name (some r) = Except.ok (Value.str []) ∧
      req_path_info (some r) = Except.ok (Value.str ['/'])) ∧
    (¬ (r.path = [] ∨ r.path = ['/']) →
      req_script_name (some r) = Except.ok (Value.str r.path) ∧
      req_path_info (some r) = Except.ok (Value.str [])) := by
  have key : (r.path.length = 0 ∨ (r.path.length = 1 ∧ r.path.head? = some '/'))
      ↔ (r.path = [] ∨ r.path = ['/']) := by
    cases hp : r.path with
    | nil => simp
    | cons c cs =>
      cases cs with
      | nil => simp
      | cons d ds => simp
  constructor
  · intro h
    have h1 := key.mpr h
    simp only [req_script_name, req_path_info, if_pos h1]
    exact ⟨rfl, rfl⟩
  · intro h
    have h1 : ¬ (r.path.length = 0 ∨ (r.path.length = 1 ∧ r.path.head? = some '/')) :=
      fun h2 => h (key.mp h2)
    simp only [req_script_name, req_path_info, if_neg h1, rb_str_new_nat, List.take_length]
    exact ⟨trivial, rfl⟩

theorem req_script_name_path_info_witness :
    (req_script_name (some ⟨Method.GET, [], none, [], none, none⟩) = Except.ok (Value.str []) ∧
      req_path_info (some ⟨Method.GET, [], none, [], none, none⟩)
        = Except.ok (Value.str ['/'])) ∧
    (req_script_name (some ⟨Method.GET, ['/'], none, [], none, none⟩)
        = Except.ok (Value.str []) ∧
      req_path_info (some ⟨Method.GET, ['/'], none, [], none, none⟩)
        = Except.ok (Value.str ['/'])) ∧
    (req_script_name (some ⟨Method.GET, "/foo/bar".toList, none, [], none, none⟩)
        = Except.ok (Value.str "/foo/bar".toList) ∧
      req_path_info (some ⟨Method.GET, "/foo/bar".toList, none, [], none, none⟩)
        = Except.ok (Value.str [])) :=
  ⟨(req_script_name_path_info ⟨Method.GET, [], none, [], none, none⟩).1 (by decide),
    (req_script_name_path_info ⟨Method.GET, ['/'], none, [], none, none⟩).1 (by decide),
    (req_script_name_path_info ⟨Method.GET, "/foo/bar".toList, none, [], none, none⟩).2
      (by decide)⟩

theorem host_scan_last_colon (a b : List Char) (hb : ':' ∉ b) :
    ∀ k : Nat, k ≤ b.length → host_scan (a ++ ':' :: b) (a.length + k) = a.length := by
  intro k
  induction k with
  | zero =>
    intro _
    cases ha : a.length with
    | zero => rfl
    | succ n =>
      have : (a ++ ':' :: b)[n + 1]? = some ':' := by
        rw [← ha, List.getElem?_append_right (le_refl _)]; simp
      simp [host_scan, this]
  | succ k ih =>
    intro hk
    have hne : (a ++ ':' :: b)[a.length + (k + 1)]? ≠ some ':' := by
      rw [List.getElem?_append_right (by omega)]
      have e : a.length + (k + 1) - a.length = k + 1 := by omega
      rw [e, List.getElem?_cons_succ]
      intro h
      exact hb (List.getElem?_mem h)
    have e : a.length + (k + 1) = (a.length + k) + 1 := by omega
    rw [e] at hne ⊢
    rw [host_scan, if_neg hne]
    exact ih (by omega)

theorem host_colon_last_colon (a b : List Char) (hb : ':' ∉ b) :
    host_colon (a ++ ':' :: b) (((a ++ ':' :: b).length : Int) - 1) = (a.length : Int) := by
  have e : (((a ++ ':' :: b).length : Int) - 1) = Int.ofNat (a.length + b.length) := by
    simp; omega
  rw [e]
  simp only [host_colon]
  rw [host_scan_last_colon a b hb b.length (le_refl _)]
  rfl

/-- C6 (amended): for every valid request whose Host value, as the header lookup
returns it, has its last colon at an index of at least 1 (the value is
a ++ ":" ++ b with a non-empty and no colon in b), req_server_name returns
everything before that colon and req_server_port everything after it. -/
theorem req_server_name_port_split
    (con_header_value : List Char → List Char → Option (List Char)) (r : Req)
    (a b : List Char) (hhost : con_header_value r.header "Host".toList = some (a ++ ':' :: b))
    (ha : a ≠ []) (hb : ':' ∉ b) :
    req_server_name con_header_value (some r) = Except.ok (Value.str a) ∧
    req_server_port con_header_value (some r) = Except.ok (Value.str b) := by
  have hc := host_colon_last_colon a b hb
  have hne : ¬ ((a.length : Int) = 0) := by
    intro h
    apply ha
    exact List.length_eq_zero.mp (by omega)
  constructor
  · simp only [req_server_name, hhost, hc, if_neg hne, rb_str_new_nat, List.take_left]
  · simp only [req_server_port, hhost, hc, if_neg hne]
    have e1 : ((a.length : Int) + 1).toNat = a.length + 1 := by omega
    have e2 : (((a ++ ':' :: b).length : Int) - (a.length : Int) - 1) = (b.length : Int) := by
      simp
    have e3 : List.drop (a.length + 1) (a ++ ':' :: b) = b := by
      have : a ++ ':' :: b = (a ++ [':']) ++ b := by simp
      rw [this, show a.length + 1 = (a ++ [':']).length by simp, List.drop_left]
    rw [e1, e2, e3, rb_str_new_nat, List.take_length]

theorem req_server_name_port_split_witness :
    req_server_name (fun _ _ => some "example.com:8080".toList)
        (some ⟨Method.GET, ['/'], none, "Host: example.com:8080\r\n".toList, none, none⟩)
      = Except.ok (Value.str "example.com".toList) ∧
    req_server_port (fun _ _ => some "example.com:8080".toList)
        (some ⟨Method.GET, ['/'], none, "Host: example.com:8080\r\n".toList, none, none⟩)
      = Except.ok (Value.str "8080".toList) :=
  req_server_name_port_split (fun _ _ => some "example.com:8080".toList)
    ⟨Method.GET, ['/'], none, "Host: example.com:8080\r\n".toList, none, none⟩
    "example.com".toList "8080".toList rfl (by decide) (by decide)

/-- C6 fails as stated: the Host value `:8080` contains a colon, yet
req_server_name and req_server_port both return nil instead of the bytes before
and after that colon. -/
theorem req_server_colon_at_start :
    ':' ∈ ":8080".toList ∧
    req_server_name (fun _ _ => some ":8080".toList)
        (some ⟨Method.GET, ['/'], none, "Host: :8080\r\n".toList, none, none⟩)
      = Except.ok Value.nil ∧
    req_server_port (fun _ _ => some ":8080".toList)
        (some ⟨Method.GET, ['/'], none, "Host: :8080\r\n".toList, none, none⟩)
      = Except.ok Value.nil ∧
    Value.nil ≠ Value.str [] ∧ Value.nil ≠ Value.str "8080".toList :=
  ⟨by decide, rfl, rfl, by decide, by decide⟩

theorem host_scan_no_colon (host : List Char) (h : ':' ∉ host) :
    ∀ c : Nat, host_scan host c = 0 := by
  intro c
  induction c with
  | zero => rfl
  | succ c ih =>
    have hne : host[c + 1]? ≠ some ':' := fun e => h (List.getElem?_mem e)
    rw [host_scan, if_neg hne, ih]

/-- The part of C7 that holds: without a Host header, or with a non-empty Host
value without colon, both accessors return nil. -/
theorem req_server_no_colon
    (con_header_value : List Char → List Char → Option (List Char)) (r : Req) :
    (con_header_value r.header "Host".toList = none →
      req_server_name con_header_value (some r) = Except.ok Value.nil ∧
      req_server_port con_header_value (some r) = Except.ok Value.nil) ∧
    (∀ v, con_header_value r.header "Host".toList = some v → v ≠ [] → ':' ∉ v →
      req_server_name con_header_value (some r) = Except.ok Value.nil ∧
      req_server_port con_header_value (some r) = Except.ok Value.nil) := by
  constructor
  · intro h
    simp only [req_server_name, req_server_port, h]
    exact ⟨trivial, trivial⟩
  · intro v h hv hc
    obtain ⟨n, hn⟩ : ∃ n : Nat, ((v.length : Int) - 1) = Int.ofNat n := by
      have : 0 < v.length := List.length_pos.mpr hv
      exact ⟨v.length - 1, by simp; omega⟩
    have hz : host_colon v ((v.length : Int) - 1) = 0 := by
      rw [hn]
      simp only [host_colon, host_scan_no_colon v hc]
      rfl
    simp only [req_server_name, req_server_port, h, hz, if_true]
    exact ⟨trivial, trivial⟩

/-- C7: when the header lookup returns a Host value of length 0, req_server_name
does not return nil: it raises the ArgumentError of rb_str_new(host, -1), and
req_server_port returns the empty string instead of nil. -/
theorem req_server_empty_host (r : Req) :
    req_server_name (fun _ _ => some []) (some r)
      = Except.error (Fault.ArgError "negative string size (or size too big)") ∧
    req_server_port (fun _ _ => some []) (some r) = Except.ok (Value.str []) :=
  ⟨rfl, rfl⟩

/-! ## Invalidated handles -/

/-- C8 (amended): on an invalidated (NULL) handle the accessors request_method,
script_name, path_info, query_string, server_name, server_port, rack_input,
rack_multithread, headers, body, to_h and to_s fail with the invalid-request
error "Request is no longer valid."; rack_version, rack_url_scheme,
rack_multiprocess and rack_run_once do not look at the request and return
"2.0.3", "http", false and false, on the NULL handle as on every other. -/
theorem accessors_on_null (con_header_value : List Char → List Char → Option (List Char))
    (hash_to_s : Hash → List Char) :
    method none = Except.error (Fault.ArgError "Request is no longer valid.") ∧
    script_name none = Except.error (Fault.ArgError "Request is no longer valid.") ∧
    path_info none = Except.error (Fault.ArgError "Request is no longer valid.") ∧
    query_string none = Except.error (Fault.ArgError "Request is no longer valid.") ∧
    server_name con_header_value none
      = Except.error (Fault.ArgError "Request is no longer valid.") ∧
    server_port con_header_value none
      = Except.error (Fault.ArgError "Request is no longer valid.") ∧
    rack_input none = Except.error (Fault.ArgError "Request is no longer valid.") ∧
    rack_multithread none = Except.error (Fault.ArgError "Request is no longer valid.") ∧
    headers none = Except.error (Fault.ArgError "Request is no longer valid.") ∧
    body none = Except.error (Fault.ArgError "Request is no longer valid.") ∧
    to_h con_header_value none = Except.error (Fault.ArgError "Request is no longer valid.") ∧
    to_s con_header_value hash_to_s none
      = Except.error (Fault.ArgError "Request is no longer valid.") ∧
    rack_version none = Except.ok (Value.str "2.0.3".toList) ∧
    rack_url_scheme none = Except.ok (Value.str "http".toList) ∧
    rack_multiprocess none = Except.ok (Value.bool false) ∧
    rack_run_once none = Except.ok (Value.bool false) ∧
    (∀ self : Option Req, rack_version self = Except.ok (Value.str "2.0.3".toList)) ∧
    (∀ self : Option Req, rack_url_scheme self = Except.ok (Value.str "http".toList)) ∧
    (∀ self : Option Req, rack_multiprocess self = Except.ok (Value.bool false)) ∧
    (∀ self : Option Req, rack_run_once self = Except.ok (Value.bool false)) :=
  ⟨rfl, rfl, rfl, rfl, rfl, rfl, rfl, rfl, rfl, rfl, rfl, rfl, rfl, rfl, rfl, rfl,
    fun _ => rfl, fun _ => rfl, fun _ => rfl, fun _ => rfl⟩

/-- C8 fails as stated: on a NULL handle rack_version, rack_url_scheme,
rack_multiprocess and rack_run_once return their constants, not the
invalid-request error. -/
theorem constant_accessors_on_null :
    rack_version none = Except.ok (Value.str "2.0.3".toList) ∧
    rack_version none ≠ Except.error (Fault.ArgError "Request is no longer valid.") ∧
    rack_url_scheme none ≠ Except.error (Fault.ArgError "Request is no longer valid.") ∧
    rack_multiprocess none ≠ Except.error (Fault.ArgError "Request is no longer valid.") ∧
    rack_run_once none ≠ Except.error (Fault.ArgError "Request is no longer valid.") := by
  refine ⟨rfl, ?_, ?_, ?_, ?_⟩ <;> intro h <;> cases h

/-- C9: a NULL handle makes to_h and request_env fail at once with the
invalid-request error; but for the valid request whose header block is the
well-formed line `Host: \r\n`, for which the header lookup gives a Host value of
length 0, request_env does not return an environment: it fails with the
ArgumentError that rb_str_new(host, -1) raises in req_server_name. -/
theorem request_env_empty_host :
    (∀ con_header_value : List Char → List Char → Option (List Char),
      to_h con_header_value none = Except.error (Fault.ArgError "Request is no longer valid.") ∧
      request_env con_header_value none
        = Except.error (Fault.ArgError "Request is no longer valid.")) ∧
    header_block [("Host".toList, [])] = "Host: \r\n".toList ∧
    well_formed_line ("Host".toList, []) ∧
    request_env (fun _ _ => some [])
        (some ⟨Method.GET, ['/'], none, "Host: \r\n".toList, none, none⟩)
      = Except.error (Fault.ArgError "negative string size (or size too big)") :=
  ⟨fun _ => ⟨rfl, rfl⟩, by decide, by decide, rfl⟩

/-! ## Keys of the environment -/

theorem bind_eq_ok {ε α β : Type} {x : Except ε α} {f : α → Except ε β} {b : β}
    (h : x.bind f = Except.ok b) : ∃ a, x = Except.ok a ∧ f a = Except.ok b := by
  cases x with
  | error e => cases h
  | ok a => exact ⟨a, rfl, h⟩

theorem map_eq_ok {ε α β : Type} {x : Except ε α} {f : α → β} {b : β}
    (h : x.map f = Except.ok b) : ∃ a, x = Except.ok a ∧ f a = b := by
  cases x with
  | error e => cases h
  | ok a => exact ⟨a, rfl, Except.ok.inj h⟩

theorem mem_keys_aset (h : Hash) (k : List Char) (v : Value) (k1 : List Char) :
    k1 ∈ (rb_hash_aset h k v).map Prod.fst ↔ k1 = k ∨ k1 ∈ h.map Prod.fst := by
  induction h with
  | nil =>
    simp only [rb_hash_aset, List.map_cons, List.map_nil, List.mem_singleton,
      List.not_mem_nil, or_false]
  | cons e rest ih =>
    obtain ⟨k0, v0⟩ := e
    by_cases hk : k0 = k
    · simp only [rb_hash_aset, hk, if_true, List.map_cons, List.mem_cons]
      tauto
    · simp only [rb_hash_aset, if_neg hk, List.map_cons, List.mem_cons, ih]
      tauto

theorem nodup_keys_aset (h : Hash) (k : List Char) (v : Value)
    (hn : (h.map Prod.fst).Nodup) : ((rb_hash_aset h k v).map Prod.fst).Nodup := by
  induction h with
  | nil => simp [rb_hash_aset]
  | cons e rest ih =>
    obtain ⟨k0, v0⟩ := e
    simp only [List.map_cons, List.nodup_cons] at hn
    by_cases hk : k0 = k
    · subst hk
      simp only [rb_hash_aset, if_true, List.map_cons, List.nodup_cons]
      exact hn
    · simp only [rb_hash_aset, if_neg hk, List.map_cons, List.nodup_cons]
      refine ⟨?_, ih hn.2⟩
      intro hm
      rcases (mem_keys_aset rest k v k0).mp hm with h1 | h1
      · exact hk h1
      · exact hn.1 h1

theorem header_key_derived (name : List Char) : header_derived (header_key name) := by
  unfold header_derived header_key
  by_cases h1 : eq_ignore_case name content_type
  · rw [if_pos h1]; exact Or.inl rfl
  · rw [if_neg h1]
    by_cases h2 : eq_ignore_case name content_length
    · rw [if_pos h2]; exact Or.inr (Or.inl rfl)
    · rw [if_neg h2]; exact Or.inr (Or.inr (List.prefix_append _ _))

/-- Whenever add_header_value returns, it has set one header-derived key. -/
theorem add_header_value_ok (hh : Hash) (key val : List Char) (klen vlen : Int) (h1 : Hash)
    (h : add_header_value hh key klen val vlen = Except.ok h1) :
    ∃ k v, header_derived k ∧ h1 = rb_hash_aset hh k v := by
  have hk : 0 ≤ klen := by
    by_contra hneg
    rw [add_header_value_negative_klen hh key val klen vlen (by omega)] at h
    cases h
  obtain ⟨n, rfl⟩ := Int.eq_ofNat_of_zero_le hk
  by_cases c1 : n = 12 ∧ eq_ignore_case (key.take 12) content_type
  · obtain ⟨rfl, c1⟩ := c1
    rw [show ((12 : Nat) : Int) = 12 from rfl,
      add_header_value_content_type_int hh key val vlen c1] at h
    obtain ⟨v, _, hv⟩ := map_eq_ok h
    exact ⟨_, v, Or.inl rfl, hv.symm⟩
  · by_cases c2 : n = 14 ∧ eq_ignore_case (key.take 14) content_length
    · obtain ⟨rfl, c2⟩ := c2
      rw [show ((14 : Nat) : Int) = 14 from rfl,
        add_header_value_content_length_int hh key val vlen c2] at h
      obtain ⟨v, _, hv⟩ := map_eq_ok h
      exact ⟨_, v, Or.inr (Or.inl rfl), hv.symm⟩
    · rw [add_header_value_http_int hh key val n vlen c1 c2] at h
      obtain ⟨v, _, hv⟩ := map_eq_ok h
      exact ⟨_, v, Or.inr (Or.inr (List.prefix_append _ _)), hv.symm⟩

theorem foldlM_calls_keys (header : List Char) (calls : List Call) : ∀ (h0 h1 : Hash),
    calls.foldlM (call_add_header_value header) h0 = Except.ok h1 →
    ((h0.map Prod.fst).Nodup → (h1.map Prod.fst).Nodup) ∧
    (∀ k ∈ h0.map Prod.fst, k ∈ h1.map Prod.fst) ∧
    (∀ k ∈ h1.map Prod.fst, k ∈ h0.map Prod.fst ∨ header_derived k) := by
  induction calls with
  | nil =>
    intro h0 h1 h
    cases h
    exact ⟨id, fun _ hk => hk, fun _ hk => Or.inl hk⟩
  | cons c cs ih =>
    intro h0 h1 h
    rw [List.foldlM_cons] at h
    obtain ⟨hm, hc, hrest⟩ := bind_eq_ok h
    obtain ⟨a1, a2, a3⟩ := ih hm h1 hrest
    have hstep : ∃ k v, header_derived k ∧ hm = rb_hash_aset h0 k v := by
      unfold call_add_header_value at hc
      split at hc
      · exact add_header_value_ok _ _ _ _ _ _ hc
      · cases hc
    obtain ⟨k, v, hd, rfl⟩ := hstep
    refine ⟨fun hn => a1 (nodup_keys_aset h0 k v hn), ?_, ?_⟩
    · intro k1 hk1
      exact a2 k1 ((mem_keys_aset h0 k v k1).mpr (Or.inr hk1))
    · intro k1 hk1
      rcases a3 k1 hk1 with h2 | h2
      · rcases (mem_keys_aset h0 k v k1).mp h2 with h3 | h3
        · exact Or.inr (h3 ▸ hd)
        · exact Or.inl h3
      · exact Or.inr h2

theorem fixed_not_derived : ∀ k ∈ fixed_keys, ¬ header_derived k := by
  unfold header_derived
  decide

/-- The shape of every environment request_env returns: seven rack entries set on
top of what fill_headers made of the six request entries. -/
theorem request_env_shape (con_header_value : List Char → List Char → Option (List Char))
    (r : Req) (env : Hash) (h : request_env con_header_value (some r) = Except.ok env) :
    ∃ (v1 v2 v3 v4 v5 v6 v8 v9 v10 v11 : Value) (hm : Hash),
      fill_headers (some r)
          (rb_hash_aset (rb_hash_aset (rb_hash_aset (rb_hash_aset (rb_hash_aset
            (rb_hash_aset [] request_method_val v1) script_name_val v2) path_info_val v3)
            query_string_val v4) server_name_val v5) server_port_val v6) = Except.ok hm ∧
      env = rb_hash_aset (rb_hash_aset (rb_hash_aset (rb_hash_aset (rb_hash_aset
            (rb_hash_aset (rb_hash_aset hm rack_version_val rack_version_val_val)
              rack_url_scheme_val v8) rack_input_val v9) rack_errors_val v10)
            rack_multithread_val v11) rack_multiprocess_val (Value.bool false))
            rack_run_once_val (Value.bool false) := by
  unfold request_env at h
  simp only [] at h
  obtain ⟨v1, _, h⟩ := bind_eq_ok h
  obtain ⟨v2, _, h⟩ := bind_eq_ok h
  obtain ⟨v3, _, h⟩ := bind_eq_ok h
  obtain ⟨v4, _, h⟩ := bind_eq_ok h
  obtain ⟨v5, _, h⟩ := bind_eq_ok h
  obtain ⟨v6, _, h⟩ := bind_eq_ok h
  obtain ⟨hm, hfill, h⟩ := bind_eq_ok h
  obtain ⟨v8, _, h⟩ := bind_eq_ok h
  obtain ⟨v9, _, h⟩ := bind_eq_ok h
  obtain ⟨v10, _, h⟩ := bind_eq_ok h
  obtain ⟨v11, _, h⟩ := bind_eq_ok h
  exact ⟨v1, v2, v3, v4, v5, v6, v8, v9, v10, v11, hm, hfill, (Except.ok.inj h).symm⟩

theorem count_eq_one_of_nodup (k : List Char) : ∀ l : List (List Char), l.Nodup → k ∈ l →
    l.count k = 1 := by
  intro l
  induction l with
  | nil => intro _ h; cases h
  | cons a rest ih =>
    intro hn hk
    simp only [List.nodup_cons] at hn
    rw [List.count_cons]
    by_cases e : a = k
    · subst e
      have : List.count a rest = 0 := List.count_eq_zero.mpr hn.1
      simp [this]
    · have hk1 : k ∈ rest := by
        rcases List.mem_cons.mp hk with h | h
        · exact absurd h.symm e
        · exact h
      simp [e, ih hn.2 hk1]

theorem count_key_eq_one (h : Hash) (k : List Char) (hn : (h.map Prod.fst).Nodup)
    (hk : k ∈ h.map Prod.fst) : (h.map Prod.fst).count k = 1 :=
  count_eq_one_of_nodup k _ hn hk

theorem env_keys_of_ok (con_header_value : List Char → List Char → Option (List Char))
    (r : Req) (env : Hash) (h : request_env con_header_value (some r) = Except.ok env) :
    (∀ k ∈ fixed_keys, (env.map Prod.fst).count k = 1) ∧
    (∀ k ∈ env.map Prod.fst, k ∉ fixed_keys → header_derived k) := by
  obtain ⟨v1, v2, v3, v4, v5, v6, v8, v9, v10, v11, hm, hfill, rfl⟩ :=
    request_env_shape con_header_value r env h
  unfold fill_headers header_calls at hfill
  simp only [] at hfill
  obtain ⟨a1, a2, a3⟩ := foldlM_calls_keys _ _ _ _ hfill
  have n6 := a1 (by
    repeat apply nodup_keys_aset
    exact List.nodup_nil)
  have hmem6 : ∀ k, k ∈ [request_method_val, script_name_val, path_info_val, query_string_val,
      server_name_val, server_port_val] → k ∈ hm.map Prod.fst := by
    intro k hk
    apply a2
    simp only [mem_keys_aset]
    simp only [List.mem_cons, List.mem_singleton, List.not_mem_nil, or_false] at hk
    tauto
  have hnodup : ∀ v8 v9 v10 v11 : Value, ((rb_hash_aset (rb_hash_aset (rb_hash_aset
      (rb_hash_aset (rb_hash_aset (rb_hash_aset (rb_hash_aset hm rack_version_val
      rack_version_val_val) rack_url_scheme_val v8) rack_input_val v9) rack_errors_val v10)
      rack_multithread_val v11) rack_multiprocess_val (Value.bool false))
      rack_run_once_val (Value.bool false)).map Prod.fst).Nodup := by
    intro _ _ _ _
    repeat apply nodup_keys_aset
    exact n6
  constructor
  · intro k hk
    apply count_key_eq_one _ _ (hnodup _ _ _ _)
    simp only [mem_keys_aset]
    have hk6 := hmem6 k
    simp only [fixed_keys, List.mem_cons, List.mem_singleton, List.not_mem_nil, or_false] at hk hk6
    simp only [request_method_val, script_name_val, path_info_val, query_string_val,
      server_name_val, server_port_val, rack_version_val, rack_url_scheme_val, rack_input_val,
      rack_errors_val, rack_multithread_val, rack_multiprocess_val, rack_run_once_val] at hk6 ⊢
    tauto
  · intro k hk hnf
    simp only [mem_keys_aset] at hk
    have hfix : ∀ k1 ∈ fixed_keys, k ≠ k1 := fun k1 hk1 e => hnf (e ▸ hk1)
    rcases hk with e | e | e | e | e | e | e | e
    · exact absurd e (hfix _ (by decide))
    · exact absurd e (hfix _ (by decide))
    · exact absurd e (hfix _ (by decide))
    · exact absurd e (hfix _ (by decide))
    · exact absurd e (hfix _ (by decide))
    · exact absurd e (hfix _ (by decide))
    · exact absurd e (hfix _ (by decide))
    · rcases a3 k e with e1 | e1
      · simp only [mem_keys_aset, List.map_nil, List.not_mem_nil, or_false] at e1
        rcases e1 with e | e | e | e | e | e
        · exact absurd e (hfix _ (by decide))
        · exact absurd e (hfix _ (by decide))
        · exact absurd e (hfix _ (by decide))
        · exact absurd e (hfix _ (by decide))
        · exact absurd e (hfix _ (by decide))
        · exact absurd e (hfix _ (by decide))
      · exact e1

theorem host_scan_le (host : List Char) : ∀ c : Nat, host_scan host c ≤ c := by
  intro c
  induction c with
  | zero => exact Nat.le_refl _
  | succ c ih =>
    rw [host_scan]
    split
    · exact Nat.le_refl _
    · exact Nat.le_succ_of_le ih

theorem req_method_ok (r : Req) : ∃ v, req_method (some r) = Except.ok v := by
  obtain ⟨m, p, q, hd, b, s⟩ := r
  cases m <;> exact ⟨_, rfl⟩

theorem req_script_name_ok (r : Req) : ∃ v, req_script_name (some r) = Except.ok v := by
  unfold req_script_name
  simp only [rb_str_new_nat]
  split <;> exact ⟨_, rfl⟩

theorem req_path_info_ok (r : Req) : ∃ v, req_path_info (some r) = Except.ok v := by
  unfold req_path_info
  simp only []
  split <;> exact ⟨_, rfl⟩

theorem req_query_string_ok (r : Req) : ∃ v, req_query_string (some r) = Except.ok v := by
  obtain ⟨m, p, q, hd, b, s⟩ := r
  cases q with
  | none => exact ⟨_, rfl⟩
  | some q => simp only [req_query_string, rb_str_new_nat]; exact ⟨_, rfl⟩

theorem req_rack_input_ok (r : Req) : ∃ v, req_rack_input (some r) = Except.ok v := by
  obtain ⟨m, p, q, hd, b, s⟩ := r
  cases b with
  | none => exact ⟨_, rfl⟩
  | some b => simp only [req_rack_input, rb_str_new_nat]; exact ⟨_, rfl⟩

theorem req_rack_multithread_ok (r : Req) : ∃ v, req_rack_multithread (some r) = Except.ok v := by
  obtain ⟨m, p, q, hd, b, s⟩ := r
  cases s with
  | none => exact ⟨_, rfl⟩
  | some s =>
    simp only [req_rack_multithread]
    split <;> exact ⟨_, rfl⟩

/-- With a Host value that is absent or not empty, req_server_name and
req_server_port both return. -/
theorem req_server_ok (con_header_value : List Char → List Char → Option (List Char))
    (r : Req) (hhost : con_header_value r.header "Host".toList ≠ some []) :
    (∃ v, req_server_name con_header_value (some r) = Except.ok v) ∧
    (∃ v, req_server_port con_header_value (some r) = Except.ok v) := by
  cases hv : con_header_value r.header "Host".toList with
  | none =>
    simp only [req_server_name, req_server_port, hv]
    exact ⟨⟨_, rfl⟩, ⟨_, rfl⟩⟩
  | some v =>
    rw [hv] at hhost
    simp only [req_server_name, req_server_port, hv]
    have hne : v ≠ [] := fun e => hhost (by rw [e])
    have hpos : 0 < v.length := List.length_pos.mpr hne
    have e1 : ((v.length : Int) - 1) = Int.ofNat (v.length - 1) := by simp; omega
    have hle := host_scan_le v (v.length - 1)
    simp only [e1, host_colon]
    generalize host_scan v (v.length - 1) = n at hle
    have e2 : ((v.length : Int) - Int.ofNat n - 1) = ((v.length - n - 1 : Nat) : Int) := by
      simp; omega
    constructor
    · split
      · exact ⟨_, rfl⟩
      · exact ⟨_, rb_str_new_nat v n⟩
    · split
      · exact ⟨_, rfl⟩
      · rw [e2]; exact ⟨_, rb_str_new_nat _ _⟩

/-- For a valid request whose header block is made of lines in the wide sense and
whose Host value is absent or not empty, request_env returns an environment. -/
theorem request_env_ok (con_header_value : List Char → List Char → Option (List Char))
    (r : Req) (lines : List (List Char × List Char)) (hr : r.header = header_block lines)
    (hwf : ∀ l ∈ lines, loose_line l)
    (hhost : con_header_value r.header "Host".toList ≠ some []) :
    ∃ env, request_env con_header_value (some r) = Except.ok env := by
  obtain ⟨v1, h1⟩ := req_method_ok r
  obtain ⟨v2, h2⟩ := req_script_name_ok r
  obtain ⟨v3, h3⟩ := req_path_info_ok r
  obtain ⟨v4, h4⟩ := req_query_string_ok r
  obtain ⟨⟨v5, h5⟩, ⟨v6, h6⟩⟩ := req_server_ok con_header_value r hhost
  obtain ⟨v9, h9⟩ := req_rack_input_ok r
  obtain ⟨v11, h11⟩ := req_rack_multithread_ok r
  obtain ⟨hm, hf⟩ := fill_headers_loose_ok r lines hr hwf
    (rb_hash_aset (rb_hash_aset (rb_hash_aset (rb_hash_aset (rb_hash_aset
      (rb_hash_aset [] request_method_val v1) script_name_val v2) path_info_val v3)
      query_string_val v4) server_name_val v5) server_port_val v6)
  unfold request_env
  simp only [h1, h2, h3, h4, h5, h6, h9, h11, bind_ok, hf, req_rack_url_scheme,
    req_rack_errors]
  exact ⟨_, rfl⟩

/-- C10: every environment request_env returns for a valid request contains each
of the 13 fixed keys REQUEST_METHOD, SCRIPT_NAME, PATH_INFO, QUERY_STRING,
SERVER_NAME, SERVER_PORT, rack.version, rack.url_scheme, rack.input, rack.errors,
rack.multithread, rack.multiprocess, rack.run_once exactly once, and every other
key in it is CONTENT_TYPE, CONTENT_LENGTH or begins with "HTTP_"; and when the
header block consists of lines `Name: Value\r\n` (no CR or colon in a name, no CR
in a value) and the Host value the lookup gives is absent or not empty,
request_env does return an environment. -/
theorem request_env_keys (con_header_value : List Char → List Char → Option (List Char))
    (r : Req) :
    (∀ env, request_env con_header_value (some r) = Except.ok env →
      (∀ k ∈ fixed_keys, (env.map Prod.fst).count k = 1) ∧
      (∀ k ∈ env.map Prod.fst, k ∉ fixed_keys →
        k = "CONTENT_TYPE".toList ∨ k = "CONTENT_LENGTH".toList ∨ "HTTP_".toList <+: k)) ∧
    (∀ lines, r.header = header_block lines → (∀ l ∈ lines, loose_line l) →
      con_header_value r.header "Host".toList ≠ some [] →
      ∃ env, request_env con_header_value (some r) = Except.ok env) :=
  ⟨fun env h => env_keys_of_ok con_header_value r env h,
    fun lines hr hwf hhost => request_env_ok con_header_value r lines hr hwf hhost⟩

theorem request_env_keys_witness :
    ∃ env,
      request_env (fun _ _ => some "example.com:8080".toList)
          (some ⟨Method.GET, "/foo".toList, none,
            "Host: example.com:8080\r\nX-Custom: 42\r\n".toList, none, some ⟨4⟩⟩)
        = Except.ok env ∧
      ∀ k ∈ fixed_keys, (env.map Prod.fst).count k = 1 :=
  have T := request_env_keys (fun _ _ => some "example.com:8080".toList)
    ⟨Method.GET, "/foo".toList, none, "Host: example.com:8080\r\nX-Custom: 42\r\n".toList,
      none, some ⟨4⟩⟩
  match T.2 [("Host".toList, "example.com:8080".toList), ("X-Custom".toList, "42".toList)]
      (by decide) (by decide) (by decide) with
  | ⟨env, h⟩ => ⟨env, h, (T.1 env h).1⟩

/-! ## Method, query string and thread count -/

/-- C13: for every valid request req_method returns the textual form of the
method, "CONNECT", "DELETE", "GET", "HEAD", "OPTIONS", "POST", "PUT" for the
corresponding enum value, and nil for every other method value; two different
recognised methods give different strings, and no recognised method gives nil. -/
theorem req_method_text (r : Req) :
    req_method (some r) = Except.ok
      (match r.method with
        | Method.CONNECT => Value.str "CONNECT".toList
        | Method.DELETE => Value.str "DELETE".toList
        | Method.GET => Value.str "GET".toList
        | Method.HEAD => Value.str "HEAD".toList
        | Method.OPTIONS => Value.str "OPTIONS".toList
        | Method.POST => Value.str "POST".toList
        | Method.PUT => Value.str "PUT".toList
        | Method.OTHER => Value.nil) ∧
    (∀ r2 : Req, r.method ≠ Method.OTHER → r2.method ≠ r.method →
      req_method (some r2) ≠ req_method (some r)) ∧
    (req_method (some r) = Except.ok Value.nil ↔ r.method = Method.OTHER) := by
  obtain ⟨m, p, q, hd, b, s⟩ := r
  refine ⟨?_, ?_, ?_⟩
  · cases m <;> rfl
  · intro r2 h1 h2
    obtain ⟨m2, p2, q2, hd2, b2, s2⟩ := r2
    simp only at h1 h2
    cases m <;> cases m2 <;> first
      | exact absurd rfl h1
      | exact absurd rfl h2
      | (simp only [req_method, ne_eq, Except.ok.injEq]; decide)
  · cases m <;> simp only [req_method, Except.ok.injEq] <;> decide

theorem req_method_text_witness :
    req_method (some ⟨Method.POST, ['/'], none, [], none, none⟩)
      ≠ req_method (some ⟨Method.GET, ['/'], none, [], none, none⟩) :=
  (req_method_text ⟨Method.GET, ['/'], none, [], none, none⟩).2.1
    ⟨Method.POST, ['/'], none, [], none, none⟩ (by decide) (by decide)

/-- C15: for every valid request with a server reference req_rack_multithread
returns true exactly when the thread count of the server is greater than 1:
true for 4, false for 1, for 0 and for negative counts. -/
theorem req_rack_multithread_count (r : Req) (s : Server) (hs : r.server = some s) :
    (req_rack_multithread (some r) = Except.ok (Value.bool true) ↔ 1 < s.thread_cnt) ∧
    (req_rack_multithread (some r) = Except.ok (Value.bool false) ↔ ¬ 1 < s.thread_cnt) := by
  obtain ⟨m, p, q, hd, b, sv⟩ := r
  simp only at hs
  subst hs
  by_cases h : 1 < s.thread_cnt
  · simp [req_rack_multithread, h]
  · simp [req_rack_multithread, h]

theorem req_rack_multithread_count_witness :
    (req_rack_multithread (some ⟨Method.GET, ['/'], none, [], none, some ⟨4⟩⟩)
      = Except.ok (Value.bool true)) ∧
    (req_rack_multithread (some ⟨Method.GET, ['/'], none, [], none, some ⟨1⟩⟩)
      = Except.ok (Value.bool false)) ∧
    (req_rack_multithread (some ⟨Method.GET, ['/'], none, [], none, some ⟨0⟩⟩)
      = Except.ok (Value.bool false)) ∧
    (req_rack_multithread (some ⟨Method.GET, ['/'], none, [], none, some ⟨-3⟩⟩)
      = Except.ok (Value.bool false)) :=
  ⟨(req_rack_multithread_count ⟨Method.GET, ['/'], none, [], none, some ⟨4⟩⟩ ⟨4⟩ rfl).1.mpr
      (by decide),
    (req_rack_multithread_count ⟨Method.GET, ['/'], none, [], none, some ⟨1⟩⟩ ⟨1⟩ rfl).2.mpr
      (by decide),
    (req_rack_multithread_count ⟨Method.GET, ['/'], none, [], none, some ⟨0⟩⟩ ⟨0⟩ rfl).2.mpr
      (by decide),
    (req_rack_multithread_count ⟨Method.GET, ['/'], none, [], none, some ⟨-3⟩⟩ ⟨-3⟩ rfl).2.mpr
      (by decide)⟩

/-! ## Host values with and without a colon behind the first byte -/

theorem last_colon_split : ∀ v : List Char, ':' ∈ v →
    ∃ a b, v = a ++ ':' :: b ∧ ':' ∉ b := by
  intro v
  induction v with
  | nil => intro h; cases h
  | cons c t ih =>
    intro h
    by_cases ht : ':' ∈ t
    · obtain ⟨a, b, e, hb⟩ := ih ht
      exact ⟨c :: a, b, by rw [e]; rfl, hb⟩
    · rcases List.mem_cons.mp h with h1 | h1
      · exact ⟨[], t, by rw [← h1]; rfl, ht⟩
      · exact absurd h1 ht

theorem host_scan_tail_no_colon (c : Char) (t : List Char) (h : ':' ∉ t) :
    ∀ n : Nat, host_scan (c :: t) n = 0 := by
  intro n
  induction n with
  | zero => rfl
  | succ n ih =>
    have hne : (c :: t)[n + 1]? ≠ some ':' := by
      rw [List.getElem?_cons_succ]
      exact fun e => h (List.getElem?_mem e)
    rw [host_scan, if_neg hne, ih]

/-- The split at the last colon, for a Host value a ++ ":" ++ b with a not empty
and no colon in b. -/
theorem req_server_split (con_header_value : List Char → List Char → Option (List Char))
    (r : Req) (a b : List Char)
    (hhost : con_header_value r.header "Host".toList = some (a ++ ':' :: b))
    (ha : a ≠ []) (hb : ':' ∉ b) :
    req_server_name con_header_value (some r) = Except.ok (Value.str a) ∧
    req_server_port con_header_value (some r) = Except.ok (Value.str b) := by
  have hc := host_colon_last_colon a b hb
  have hne : ¬ ((a.length : Int) = 0) := by
    intro h
    apply ha
    exact List.length_eq_zero.mp (by omega)
  constructor
  · simp only [req_server_name, hhost, hc, if_neg hne, rb_str_new_nat, List.take_left]
  · simp only [req_server_port, hhost, hc, if_neg hne]
    have e1 : ((a.length : Int) + 1).toNat = a.length + 1 := by omega
    have e2 : (((a ++ ':' :: b).length : Int) - (a.length : Int) - 1) = (b.length : Int) := by
      simp
    have e3 : List.drop (a.length + 1) (a ++ ':' :: b) = b := by
      have : a ++ ':' :: b = (a ++ [':']) ++ b := by simp
      rw [this, show a.length + 1 = (a ++ [':']).length by simp, List.drop_left]
    rw [e1, e2, e3, rb_str_new_nat, List.take_length]

/-- C20: for every non-empty Host value v the header lookup returns,
req_server_name and req_server_port are both present when v holds a colon at
some index >= 1, and then the name is not empty, the port holds no colon and
name ++ ":" ++ port = v; otherwise (no colon, or a colon at index 0 only) both
are nil. -/
theorem req_server_both (con_header_value : List Char → List Char → Option (List Char))
    (r : Req) (v : List Char) (hhost : con_header_value r.header "Host".toList = some v)
    (hv : v ≠ []) :
    ((∃ i, 1 ≤ i ∧ v[i]? = some ':') →
      ∃ a b, a ≠ [] ∧ ':' ∉ b ∧ a ++ ':' :: b = v ∧
        req_server_name con_header_value (some r) = Except.ok (Value.str a) ∧
        req_server_port con_header_value (some r) = Except.ok (Value.str b)) ∧
    (¬ (∃ i, 1 ≤ i ∧ v[i]? = some ':') →
      req_server_name con_header_value (some r) = Except.ok Value.nil ∧
      req_server_port con_header_value (some r) = Except.ok Value.nil) := by
  cases v with
  | nil => exact absurd rfl hv
  | cons c t =>
    have hiff : (∃ i, 1 ≤ i ∧ (c :: t)[i]? = some ':') ↔ ':' ∈ t := by
      constructor
      · rintro ⟨i, hi, e⟩
        obtain ⟨j, rfl⟩ : ∃ j, i = j + 1 := ⟨i - 1, by omega⟩
        rw [List.getElem?_cons_succ] at e
        exact List.getElem?_mem e
      · intro h
        obtain ⟨j, e⟩ := List.getElem?_of_mem h
        exact ⟨j + 1, by omega, by rw [List.getElem?_cons_succ]; exact e⟩
    constructor
    · intro h
      obtain ⟨a, b, e, hb⟩ := last_colon_split t (hiff.mp h)
      have e2 : c :: t = (c :: a) ++ ':' :: b := by rw [e]; rfl
      rw [e2] at hhost
      obtain ⟨h1, h2⟩ := req_server_split con_header_value r (c :: a) b hhost
        (List.cons_ne_nil c a) hb
      exact ⟨c :: a, b, List.cons_ne_nil c a, hb, e2.symm, h1, h2⟩
    · intro h
      have ht : ':' ∉ t := fun hm => h (hiff.mpr hm)
      have e1 : (((c :: t).length : Int) - 1) = Int.ofNat t.length := by simp
      have hz : host_colon (c :: t) (((c :: t).length : Int) - 1) = 0 := by
        rw [e1]
        simp only [host_colon, host_scan_tail_no_colon c t ht]
        rfl
      simp only [req_server_name, req_server_port, hhost, hz, if_true]
      exact ⟨trivial, trivial⟩

theorem req_server_both_witness :
    (∃ a b, a ≠ [] ∧ ':' ∉ b ∧ a ++ ':' :: b = ":a:80".toList ∧
      req_server_name (fun _ _ => some ":a:80".toList)
          (some ⟨Method.GET, ['/'], none, "Host: :a:80\r\n".toList, none, none⟩)
        = Except.ok (Value.str a) ∧
      req_server_port (fun _ _ => some ":a:80".toList)
          (some ⟨Method.GET, ['/'], none, "Host: :a:80\r\n".toList, none, none⟩)
        = Except.ok (Value.str b)) ∧
    (req_server_name (fun _ _ => some ":8080".toList)
          (some ⟨Method.GET, ['/'], none, "Host: :8080\r\n".toList, none, none⟩)
        = Except.ok Value.nil ∧
      req_server_port (fun _ _ => some ":8080".toList)
          (some ⟨Method.GET, ['/'], none, "Host: :8080\r\n".toList, none, none⟩)
        = Except.ok Value.nil) :=
  ⟨(req_server_both (fun _ _ => some ":a:80".toList)
      ⟨Method.GET, ['/'], none, "Host: :a:80\r\n".toList, none, none⟩ ":a:80".toList rfl
      (by decide)).1 ⟨2, by decide, by decide⟩,
    (req_server_both (fun _ _ => some ":8080".toList)
      ⟨Method.GET, ['/'], none, "Host: :8080\r\n".toList, none, none⟩ ":8080".toList rfl
      (by decide)).2 (by
        rintro ⟨i, hi, e⟩
        have hm : ':' ∈ "8080".toList := by
          obtain ⟨j, rfl⟩ : ∃ j, i = j + 1 := ⟨i - 1, by omega⟩
          have hl : ":8080".toList = ':' :: "8080".toList := rfl
          rw [hl, List.getElem?_cons_succ] at e
          exact List.getElem?_mem e
        revert hm; decide)⟩

/-! ## Duplicate header names -/

theorem aref_aset (h : Hash) (k : List Char) (v : Value) (k1 : List Char) :
    rb_hash_aref (rb_hash_aset h k v) k1 = if k1 = k then some v else rb_hash_aref h k1 := by
  induction h with
  | nil =>
    by_cases e : k = k1
    · subst e; simp only [rb_hash_aset, rb_hash_aref, if_true]
    · have e2 : ¬ k1 = k := fun x => e x.symm
      simp only [rb_hash_aset, rb_hash_aref, if_neg e, if_neg e2]
  | cons p rest ih =>
    obtain ⟨k0, v0⟩ := p
    by_cases hk : k0 = k
    · subst hk
      by_cases e : k0 = k1
      · subst e; simp only [rb_hash_aset, rb_hash_aref, if_true]
      · have e2 : ¬ k1 = k0 := fun x => e x.symm
        simp only [rb_hash_aset, rb_hash_aref, if_true, if_neg e, if_neg e2]
    · by_cases e : k0 = k1
      · subst e
        simp only [rb_hash_aset, rb_hash_aref, if_neg hk, if_true]
      · simp only [rb_hash_aset, rb_hash_aref, if_neg hk, if_neg e, ih]

theorem foldl_aset_nodup (lines : List (List Char × List Char)) : ∀ h0 : Hash,
    (h0.map Prod.fst).Nodup →
    ((lines.foldl (fun hh l => rb_hash_aset hh (header_key l.1) (Value.str l.2)) h0).map
      Prod.fst).Nodup := by
  induction lines with
  | nil => intro h0 hn; exact hn
  | cons l ls ih =>
    intro h0 hn
    exact ih _ (nodup_keys_aset h0 _ _ hn)

theorem foldl_aset_mem (lines : List (List Char × List Char)) : ∀ (h0 : Hash) (k : List Char),
    k ∈ (lines.foldl (fun hh l => rb_hash_aset hh (header_key l.1) (Value.str l.2)) h0).map
        Prod.fst
      ↔ k ∈ h0.map Prod.fst ∨ ∃ l ∈ lines, header_key l.1 = k := by
  induction lines with
  | nil =>
    intro h0 k
    simp only [List.foldl_nil, List.not_mem_nil, false_and, exists_false, or_false]
  | cons l ls ih =>
    intro h0 k
    rw [List.foldl_cons, ih, mem_keys_aset]
    constructor
    · rintro ((h | h) | ⟨l2, hl2, e⟩)
      · exact Or.inr ⟨l, by simp, h.symm⟩
      · exact Or.inl h
      · exact Or.inr ⟨l2, by simp [hl2], e⟩
    · rintro (h | ⟨l2, hl2, e⟩)
      · exact Or.inl (Or.inr h)
      · rcases List.mem_cons.mp hl2 with h1 | h1
        · subst h1; exact Or.inl (Or.inl e.symm)
        · exact Or.inr ⟨l2, h1, e⟩

theorem foldl_aset_aref_other (lines : List (List Char × List Char)) (k : List Char)
    (hk : ∀ l ∈ lines, header_key l.1 ≠ k) : ∀ h0 : Hash,
    rb_hash_aref (lines.foldl (fun hh l => rb_hash_aset hh (header_key l.1) (Value.str l.2)) h0) k
      = rb_hash_aref h0 k := by
  induction lines with
  | nil => intro h0; rfl
  | cons l ls ih =>
    intro h0
    rw [List.foldl_cons, ih (fun l2 hl2 => hk l2 (by simp [hl2])), aref_aset,
      if_neg (fun e => hk l (by simp) e.symm)]

/-- The part of C11 that holds: for a header block of lines whose names and values
hold no space, colon, CR or LF, the hash that headers returns has unique keys,
its keys are the keys add_header_value derives from the names of the lines, and
under the key of a line that no later line shares it holds the value of that
line, unchanged: of several such lines with one key the last wins and values
are never merged. -/
theorem headers_last_wins (r : Req) (lines : List (List Char × List Char))
    (hr : r.header = header_block lines) (hwf : ∀ l ∈ lines, well_formed_line l) :
    ∃ h, headers (some r) = Except.ok h ∧
      (h.map Prod.fst).Nodup ∧
      (∀ l : List Char × List Char, add_header_value [] l.1 l.1.length l.2 l.2.length
        = Except.ok [(header_key l.1, Value.str l.2)]) ∧
      (∀ k, k ∈ h.map Prod.fst ↔ ∃ l ∈ lines, header_key l.1 = k) ∧
      (∀ pre l post, lines = pre ++ l :: post →
        (∀ l2 ∈ post, header_key l2.1 ≠ header_key l.1) →
        rb_hash_aref h (header_key l.1) = some (Value.str l.2)) := by
  refine ⟨_, headers_block r lines hr hwf, foldl_aset_nodup lines [] List.nodup_nil, ?_, ?_, ?_⟩
  · intro l
    have := add_header_value_eq [] l.1 [] l.2 []
    simp only [List.append_nil] at this
    rw [this]; rfl
  · intro k
    rw [foldl_aset_mem]
    simp
  · intro pre l post e hpost
    rw [e, List.foldl_append, List.foldl_cons, foldl_aset_aref_other post _ hpost, aref_aset,
      if_pos rfl]

theorem headers_last_wins_witness :
    ∃ h, headers (some ⟨Method.GET, ['/'], none,
        "X-A: 1\r\nX-B: 2\r\nX-A: 3\r\n".toList, none, none⟩) = Except.ok h ∧
      rb_hash_aref h (header_key "X-A".toList) = some (Value.str "3".toList) :=
  match headers_last_wins
      ⟨Method.GET, ['/'], none, "X-A: 1\r\nX-B: 2\r\nX-A: 3\r\n".toList, none, none⟩
      [("X-A".toList, "1".toList), ("X-B".toList, "2".toList), ("X-A".toList, "3".toList)]
      (by decide) (by decide) with
  | ⟨h, h1, _, _, _, h5⟩ =>
    ⟨h, h1, h5 [("X-A".toList, "1".toList), ("X-B".toList, "2".toList)]
      ("X-A".toList, "3".toList) [] rfl (fun _ hm => by cases hm)⟩

/-! ## Oversized header names -/

theorem store_ok {a b : List (Option Char)} {i : Nat} {c : Char}
    (h : store a i c = Except.ok b) : i < a.length ∧ b.length = a.length := by
  unfold store at h
  split at h
  · rename_i hi
    cases h
    exact ⟨hi, by simp⟩
  · cases h

theorem store_bytes_ok (bytes : List Char) : ∀ (a b : List (Option Char)) (i : Nat),
    store_bytes a i bytes = Except.ok b →
    b.length = a.length ∧ (bytes ≠ [] → i + bytes.length ≤ a.length) := by
  induction bytes with
  | nil =>
    intro a b i h
    cases h
    exact ⟨rfl, fun h => absurd rfl h⟩
  | cons c cs ih =>
    intro a b i h
    rw [store_bytes] at h
    obtain ⟨a1, h1, h2⟩ := bind_eq_ok h
    obtain ⟨hi, hl⟩ := store_ok h1
    obtain ⟨hl2, hb⟩ := ih a1 b (i + 1) h2
    refine ⟨by rw [hl2, hl], fun _ => ?_⟩
    cases cs with
    | nil => simp only [List.length_cons, List.length_nil]; omega
    | cons d ds =>
      have := hb (List.cons_ne_nil d ds)
      rw [hl] at this
      simp only [List.length_cons] at this ⊢
      omega

/-- The three writes into the key buffer succeed for every count up to 1018. -/
theorem hkey_writes_ok (a0 : List (Option Char)) (p key : List Char) (m : Nat)
    (hp : p.length = 5) (ha : a0.length = 1024) (hm : m ≤ 1018) :
    ∃ b1 b2 b3, strcpy a0 p = Except.ok b1 ∧ strncpy b1 5 key m = Except.ok b2 ∧
      store b2 (m + 5) NUL = Except.ok b3 := by
  have hr : (a0.drop 6).length = 1018 := by rw [List.length_drop, ha]
  have h := hkey_read (a0.drop 6) p key m (fun k => Except.ok k) hp (by omega)
  obtain ⟨b2, h2, h⟩ := bind_eq_ok h
  obtain ⟨b3, h3, _⟩ := bind_eq_ok h
  exact ⟨_, b2, b3, strcpy_eq a0 p hp (by omega), h2, h3⟩

theorem strncpy_bytes_take (m : Nat) (name : List Char) (hm : m ≤ name.length) :
    strncpy_bytes name m
      = (name.take m).takeWhile (fun c => c != NUL)
        ++ List.replicate (m - ((name.take m).takeWhile (fun c => c != NUL)).length) NUL := by
  have e : name = name.take m ++ name.drop m := (List.take_append_drop m name).symm
  have hl : (name.take m).length = m := by rw [List.length_take]; omega
  have h1 : strncpy_bytes name m = strncpy_bytes (name.take m) m := by
    conv_lhs => rw [e]
    exact strncpy_bytes_append m _ _ (by omega)
  have h2 := strncpy_bytes_self (name.take m)
  rw [hl] at h2
  rw [h1, h2]

theorem header_key_long (name : List Char) (hlen : 1019 ≤ name.length) :
    header_key name = "HTTP_".toList ++ strncpy_bytes name 1018 := by
  have h1 : ¬ eq_ignore_case name content_type := by
    intro h
    have := eq_ignore_case_length h
    rw [content_type_length] at this
    omega
  have h2 : ¬ eq_ignore_case name content_length := by
    intro h
    have := eq_ignore_case_length h
    rw [content_length_length] at this
    omega
  rw [header_key, if_neg h1, if_neg h2, if_pos hlen]

/-- C12 (amended): a header name of 1019 bytes or more is not rejected:
add_header_value stores the value under a key of exactly 1023 bytes, "HTTP_"
followed by the first 1018 bytes of the name up to their first NUL byte and then
NUL bytes (so "HTTP_" followed by the first 1018 bytes of the name when these
hold no NUL byte); the three writes into the 1024 byte buffer, among them the
final NUL at index 1018 + 5, all lie inside the buffer. -/
theorem add_header_value_long_name (hh : Hash) (name rest val rest1 : List Char)
    (hlen : 1019 ≤ name.length) :
    ∃ k, add_header_value hh (name ++ rest) name.length (val ++ rest1) val.length
        = Except.ok (rb_hash_aset hh k (Value.str val)) ∧
      k.length = 1023 ∧
      k = "HTTP_".toList ++ ((name.take 1018).takeWhile (fun c => c != NUL)
        ++ List.replicate
          (1018 - ((name.take 1018).takeWhile (fun c => c != NUL)).length) NUL) ∧
      (NUL ∉ name.take 1018 → k = "HTTP_".toList ++ name.take 1018) ∧
      ∃ b1 b2 b3, strcpy (List.replicate 1024 none) "HTTP_".toList = Except.ok b1 ∧
        strncpy b1 5 (name ++ rest) 1018 = Except.ok b2 ∧
        store b2 (1018 + 5) NUL = Except.ok b3 ∧
        b1.length = 1024 ∧ b2.length = 1024 ∧ 1018 + 5 < b2.length := by
  have hk := header_key_long name hlen
  have hl := strncpy_bytes_length 1018 name
  refine ⟨header_key name, add_header_value_eq hh name rest val rest1, ?_, ?_, ?_, ?_⟩
  · rw [hk, List.length_append, hl]; rfl
  · rw [hk, strncpy_bytes_take 1018 name (by omega)]
  · intro hn
    have e : name.take 1018 ++ name.drop 1018 = name := List.take_append_drop 1018 name
    have hl2 : (name.take 1018).length = 1018 := by rw [List.length_take]; omega
    have h1 : strncpy_bytes name 1018 = strncpy_bytes (name.take 1018) 1018 := by
      conv_lhs => rw [← e]
      exact strncpy_bytes_append 1018 _ _ (by omega)
    have h2 := strncpy_bytes_no_nul (name.take 1018) hn
    rw [hl2] at h2
    rw [hk, h1, h2]
  · have ha : (List.replicate 1024 (none : Option Char)).length = 1024 :=
      List.length_replicate _ _
    generalize List.replicate 1024 (none : Option Char) = a0 at ha ⊢
    obtain ⟨b1, b2, b3, h1, h2, h3⟩ := hkey_writes_ok a0 "HTTP_".toList (name ++ rest) 1018
      (by decide) ha (Nat.le_refl _)
    have l1 : b1.length = 1024 := by
      have := (store_bytes_ok _ _ _ _ h1).1
      rw [this, ha]
    have l2 : b2.length = 1024 := by
      have := (store_bytes_ok _ _ _ _ h2).1
      rw [this, l1]
    exact ⟨b1, b2, b3, h1, h2, h3, l1, l2, (store_ok h3).1⟩

theorem add_header_value_long_name_witness :
    ∃ k, add_header_value [] (List.replicate 1019 'x' ++ ": v\r\n".toList)
          (List.replicate 1019 'x').length ("v".toList ++ "\r\n".toList) "v".toList.length
        = Except.ok (rb_hash_aset [] k (Value.str "v".toList)) ∧
      k.length = 1023 :=
  match add_header_value_long_name [] (List.replicate 1019 'x') ": v\r\n".toList "v".toList
      "\r\n".toList (le_of_eq (List.length_replicate 1019 'x').symm) with
  | ⟨k, h1, h2, _⟩ => ⟨k, h1, h2⟩

theorem strncpy_bytes_nul_second (n : Nat) (x : Char) (l : List Char) (hx : x ≠ NUL) :
    strncpy_bytes (x :: NUL :: l) (n + 2) = x :: List.replicate (n + 1) NUL := by
  simp [strncpy_bytes, hx]

theorem take_nul_second_ne (n : Nat) (l : List Char) :
    'a' :: List.replicate (n + 2) NUL ≠ List.take (n + 3) ('a' :: NUL :: 'b' :: l) := by
  intro h
  rw [List.take_succ_cons, List.take_succ_cons, List.take_succ_cons, List.replicate_succ,
    List.replicate_succ] at h
  have h1 := List.tail_eq_of_cons_eq h
  have h2 := List.tail_eq_of_cons_eq h1
  have h3 := List.head_eq_of_cons_eq h2
  revert h3; decide

/-- C12 fails as stated: for the name of 1019 bytes a, NUL, b, b, ... the key is
"HTTP_" followed by a and 1017 NUL bytes, which is not "HTTP_" followed by the
first 1018 bytes of the name. -/
theorem add_header_value_long_nul_name :
    ('a' :: NUL :: 'b' :: List.replicate 1016 'b').length = 1019 ∧
    add_header_value [] ('a' :: NUL :: 'b' :: List.replicate 1016 'b') 1019 ['v'] 1
      = Except.ok [("HTTP_".toList ++ 'a' :: List.replicate 1017 NUL, Value.str ['v'])] ∧
    "HTTP_".toList ++ 'a' :: List.replicate 1017 NUL
      ≠ "HTTP_".toList ++ List.take 1018 ('a' :: NUL :: 'b' :: List.replicate 1016 'b') := by
  have hl : ('a' :: NUL :: 'b' :: List.replicate 1016 'b').length = 1019 := by
    rw [List.length_cons, List.length_cons, List.length_cons, List.length_replicate]
  have e := add_header_value_eq [] ('a' :: NUL :: 'b' :: List.replicate 1016 'b') [] ['v'] []
  rw [List.append_nil, List.append_nil, header_key_long _ (by rw [hl]), hl,
    strncpy_bytes_nul_second 1016 'a' _ (by decide)] at e
  refine ⟨hl, e, ?_⟩
  intro h
  exact take_nul_second_ne 1015 _ (List.append_cancel_left h)

/-! ## The tokenizer on arbitrary blocks -/

/-- C16: for the header line `Host: example.com:8080\r\n` the tokenizer does not close
the name span at the first colon: the second colon sets `kend` and `val` again,
the emitted name is `Host: example.com` and the emitted value is `8080`, and
headers stores `8080` under the key `HTTP_Host: example.com`. -/
theorem header_entries_second_colon :
    "Host: example.com:8080\r\n".toList
      = "Host".toList ++ ": ".toList ++ "example.com:8080".toList ++ "\r\n".toList ∧
    header_calls "Host: example.com:8080\r\n".toList
      = [⟨0, some 17, some 18, Ptr.addr 22⟩] ∧
    header_entries "Host: example.com:8080\r\n".toList
      = [some ("Host: example.com".toList, "8080".toList)] ∧
    ∀ r : Req, r.header = "Host: example.com:8080\r\n".toList →
      headers (some r)
        = Except.ok [("HTTP_Host: example.com".toList, Value.str "8080".toList)] := by
  have hc : header_calls "Host: example.com:8080\r\n".toList
      = [⟨0, some 17, some 18, Ptr.addr 22⟩] := by decide
  refine ⟨by decide, hc, by decide, ?_⟩
  intro r hr
  have ha := add_header_value_eq [] "Host: example.com".toList ":8080\r\n".toList
    "8080".toList "\r\n".toList
  unfold headers fill_headers
  simp only [hr, hc, List.foldlM_cons, List.foldlM_nil, call_add_header_value]
  have e1 : List.drop 0 "Host: example.com:8080\r\n".toList
      = "Host: example.com".toList ++ ":8080\r\n".toList := by decide
  have e2 : List.drop 18 "Host: example.com:8080\r\n".toList
      = "8080".toList ++ "\r\n".toList := by decide
  have e3 : (((17 : Nat) : Int) - ((0 : Nat) : Int))
      = (("Host: example.com".toList.length : Nat) : Int) := by decide
  have e4 : (((22 : Nat) : Int) - ((18 : Nat) : Int))
      = (("8080".toList.length : Nat) : Int) := by decide
  rw [e1, e2, e3, e4, ha]
  exact congrArg Except.ok (by decide)

/-- C18: for the header block `garbage\r\n` (a line without colon) the call the
tokenizer makes has `val` NULL and `vend` never assigned, so the value length
(int)(vend - val) is not defined and fill_headers runs into undefined behaviour;
the same holds for the bare line `\r\n`, and for a line without colon behind a
good line, where `kend` is NULL as well. -/
theorem header_calls_without_colon :
    header_calls "garbage\r\n".toList = [⟨0, some 0, none, Ptr.uninit⟩] ∧
    header_entries "garbage\r\n".toList = [none] ∧
    ¬ call_in_range "garbage\r\n".toList.length ⟨0, some 0, none, Ptr.uninit⟩ ∧
    (∀ r : Req, r.header = "garbage\r\n".toList →
      headers (some r) = Except.error Fault.undefined) ∧
    header_calls "\r\n".toList = [⟨0, some 0, none, Ptr.uninit⟩] ∧
    (∀ r : Req, r.header = "\r\n".toList → headers (some r) = Except.error Fault.undefined) ∧
    header_calls "a: b\r\ngarbage\r\n".toList
      = [⟨0, some 1, some 3, Ptr.addr 4⟩, ⟨6, none, none, Ptr.null⟩] ∧
    header_entries "a: b\r\ngarbage\r\n".toList = [some (['a'], ['b']), none] := by
  have h1 : header_calls "garbage\r\n".toList = [⟨0, some 0, none, Ptr.uninit⟩] := by decide
  have h2 : header_calls "\r\n".toList = [⟨0, some 0, none, Ptr.uninit⟩] := by decide
  refine ⟨h1, by decide, ?_, ?_, h2, ?_, by decide, by decide⟩
  · rintro ⟨ke, v, ve, _, e, _⟩
    cases e
  · intro r hr
    simp only [headers, fill_headers, hr, h1, List.foldlM_cons, call_add_header_value]
    rfl
  · intro r hr
    simp only [headers, fill_headers, hr, h2, List.foldlM_cons, call_add_header_value]
    rfl

/-! ## Fixed entries of the environment -/

theorem foldlM_calls_aref (header : List Char) (calls : List Call) (k : List Char)
    (hk : ¬ header_derived k) : ∀ (h0 h1 : Hash),
    calls.foldlM (call_add_header_value header) h0 = Except.ok h1 →
    rb_hash_aref h1 k = rb_hash_aref h0 k := by
  induction calls with
  | nil =>
    intro h0 h1 h
    cases h
    rfl
  | cons c cs ih =>
    intro h0 h1 h
    rw [List.foldlM_cons] at h
    obtain ⟨hm, hc, hrest⟩ := bind_eq_ok h
    have hstep : ∃ k1 v, header_derived k1 ∧ hm = rb_hash_aset h0 k1 v := by
      unfold call_add_header_value at hc
      split at hc
      · exact add_header_value_ok _ _ _ _ _ _ hc
      · cases hc
    obtain ⟨k1, v, hd, rfl⟩ := hstep
    rw [ih _ _ hrest, aref_aset, if_neg (fun (e : k = k1) => hk (by rw [e]; exact hd))]

/-- Every environment request_env returns, with the values the six accessors
returned for the request. -/
theorem request_env_shape_values
    (con_header_value : List Char → List Char → Option (List Char))
    (r : Req) (env : Hash) (h : request_env con_header_value (some r) = Except.ok env) :
    ∃ (v1 v2 v3 v4 v5 v6 v8 v9 v10 v11 : Value) (hm : Hash),
      req_method (some r) = Except.ok v1 ∧ req_script_name (some r) = Except.ok v2 ∧
      req_path_info (some r) = Except.ok v3 ∧ req_query_string (some r) = Except.ok v4 ∧
      req_server_name con_header_value (some r) = Except.ok v5 ∧
      req_server_port con_header_value (some r) = Except.ok v6 ∧
      fill_headers (some r)
          (rb_hash_aset (rb_hash_aset (rb_hash_aset (rb_hash_aset (rb_hash_aset
            (rb_hash_aset [] request_method_val v1) script_name_val v2) path_info_val v3)
            query_string_val v4) server_name_val v5) server_port_val v6) = Except.ok hm ∧
      env = rb_hash_aset (rb_hash_aset (rb_hash_aset (rb_hash_aset (rb_hash_aset
            (rb_hash_aset (rb_hash_aset hm rack_version_val rack_version_val_val)
              rack_url_scheme_val v8) rack_input_val v9) rack_errors_val v10)
            rack_multithread_val v11) rack_multiprocess_val (Value.bool false))
            rack_run_once_val (Value.bool false) := by
  unfold request_env at h
  simp only [] at h
  obtain ⟨v1, e1, h⟩ := bind_eq_ok h
  obtain ⟨v2, e2, h⟩ := bind_eq_ok h
  obtain ⟨v3, e3, h⟩ := bind_eq_ok h
  obtain ⟨v4, e4, h⟩ := bind_eq_ok h
  obtain ⟨v5, e5, h⟩ := bind_eq_ok h
  obtain ⟨v6, e6, h⟩ := bind_eq_ok h
  obtain ⟨hm, hfill, h⟩ := bind_eq_ok h
  obtain ⟨v8, _, h⟩ := bind_eq_ok h
  obtain ⟨v9, _, h⟩ := bind_eq_ok h
  obtain ⟨v10, _, h⟩ := bind_eq_ok h
  obtain ⟨v11, _, h⟩ := bind_eq_ok h
  exact ⟨v1, v2, v3, v4, v5, v6, v8, v9, v10, v11, hm, e1, e2, e3, e4, e5, e6, hfill,
    (Except.ok.inj h).symm⟩

/-- C19: no key add_header_value sets is one of the 13 fixed keys, and so every
environment request_env returns for a valid request maps REQUEST_METHOD,
SCRIPT_NAME, PATH_INFO, QUERY_STRING, SERVER_NAME and SERVER_PORT to the results
of req_method, req_script_name, req_path_info, req_query_string,
req_server_name and req_server_port for that request, whatever the header block
holds; an environment is returned when the block consists of lines
`Name: Value\r\n` and the Host value the lookup gives is absent or not empty. -/
theorem request_env_fixed_entries
    (con_header_value : List Char → List Char → Option (List Char)) (r : Req) :
    (∀ (hh : Hash) (key : List Char) (klen : Int) (val : List Char) (vlen : Int) (h1 : Hash),
      add_header_value hh key klen val vlen = Except.ok h1 →
      ∃ k v, k ∉ fixed_keys ∧ h1 = rb_hash_aset hh k v) ∧
    (∀ env, request_env con_header_value (some r) = Except.ok env →
      ∃ v1 v2 v3 v4 v5 v6,
        req_method (some r) = Except.ok v1 ∧
        rb_hash_aref env "REQUEST_METHOD".toList = some v1 ∧
        req_script_name (some r) = Except.ok v2 ∧
        rb_hash_aref env "SCRIPT_NAME".toList = some v2 ∧
        req_path_info (some r) = Except.ok v3 ∧
        rb_hash_aref env "PATH_INFO".toList = some v3 ∧
        req_query_string (some r) = Except.ok v4 ∧
        rb_hash_aref env "QUERY_STRING".toList = some v4 ∧
        req_server_name con_header_value (some r) = Except.ok v5 ∧
        rb_hash_aref env "SERVER_NAME".toList = some v5 ∧
        req_server_port con_header_value (some r) = Except.ok v6 ∧
        rb_hash_aref env "SERVER_PORT".toList = some v6) ∧
    (∀ lines, r.header = header_block lines → (∀ l ∈ lines, loose_line l) →
      con_header_value r.header "Host".toList ≠ some [] →
      ∃ env, request_env con_header_value (some r) = Except.ok env) := by
  refine ⟨?_, ?_, fun lines hr hwf hhost => request_env_ok con_header_value r lines hr hwf hhost⟩
  · intro hh key klen val vlen h1 h
    obtain ⟨k, v, hd, e⟩ := add_header_value_ok hh key val klen vlen h1 h
    exact ⟨k, v, fun hm => fixed_not_derived k hm hd, e⟩
  · intro env h
    obtain ⟨v1, v2, v3, v4, v5, v6, v8, v9, v10, v11, hm, e1, e2, e3, e4, e5, e6, hfill, rfl⟩ :=
      request_env_shape_values con_header_value r env h
    unfold fill_headers header_calls at hfill
    simp only [] at hfill
    have keep : ∀ k ∈ fixed_keys, rb_hash_aref hm k = rb_hash_aref
        (rb_hash_aset (rb_hash_aset (rb_hash_aset (rb_hash_aset (rb_hash_aset
          (rb_hash_aset [] request_method_val v1) script_name_val v2) path_info_val v3)
          query_string_val v4) server_name_val v5) server_port_val v6) k :=
      fun k hk => foldlM_calls_aref _ _ k (fixed_not_derived k hk) _ _ hfill
    refine ⟨v1, v2, v3, v4, v5, v6, e1, ?_, e2, ?_, e3, ?_, e4, ?_, e5, ?_, e6, ?_⟩
    all_goals
      simp only [aref_aset]
      rw [if_neg (by decide), if_neg (by decide), if_neg (by decide), if_neg (by decide),
        if_neg (by decide), if_neg (by decide), if_neg (by decide), keep _ (by decide)]
      simp only [aref_aset]
      first
        | rw [if_pos (by decide)]
        | rw [if_neg (by decide), if_pos (by decide)]
        | rw [if_neg (by decide), if_neg (by decide), if_pos (by decide)]
        | rw [if_neg (by decide), if_neg (by decide), if_neg (by decide), if_pos (by decide)]
        | rw [if_neg (by decide), if_neg (by decide), if_neg (by decide), if_neg (by decide),
            if_pos (by decide)]
        | rw [if_neg (by decide), if_neg (by decide), if_neg (by decide), if_neg (by decide),
            if_neg (by decide), if_pos (by decide)]

theorem request_env_fixed_entries_witness :
    ∃ env,
      request_env (fun _ _ => some "example.com:8080".toList)
          (some ⟨Method.GET, "/foo".toList, none,
            "Host: example.com:8080\r\nSERVER_NAME: x\r\n".toList, none, some ⟨4⟩⟩)
        = Except.ok env ∧
      ∃ v5, req_server_name (fun _ _ => some "example.com:8080".toList)
          (some ⟨Method.GET, "/foo".toList, none,
            "Host: example.com:8080\r\nSERVER_NAME: x\r\n".toList, none, some ⟨4⟩⟩)
          = Except.ok v5 ∧
        rb_hash_aref env "SERVER_NAME".toList = some v5 :=
  have T := request_env_fixed_entries (fun _ _ => some "example.com:8080".toList)
    ⟨Method.GET, "/foo".toList, none, "Host: example.com:8080\r\nSERVER_NAME: x\r\n".toList,
      none, some ⟨4⟩⟩
  match T.2.2 [("Host".toList, "example.com:8080".toList), ("SERVER_NAME".toList, "x".toList)]
      (by decide) (by decide) (by decide) with
  | ⟨env, h⟩ =>
    match T.2.1 env h with
    | ⟨_, _, _, _, v5, _, _, _, _, _, _, _, _, _, h9, h10, _, _⟩ => ⟨env, h, v5, h9, h10⟩

/-! ## Duplicate names whose values hold a colon or a space -/

/-- One call of add_header_value by fill_headers, for cursors that delimit `name`
and `value` in the block. -/
theorem call_add_header_value_eval (header : List Char) (hh : Hash) (key ke v ve : Nat)
    (name rest value rest1 : List Char) (h1 : header.drop key = name ++ rest)
    (h2 : header.drop v = value ++ rest1) (h3 : ke = key + name.length)
    (h4 : ve = v + value.length) :
    call_add_header_value header hh ⟨key, some ke, some v, Ptr.addr ve⟩
      = Except.ok (rb_hash_aset hh (header_key name) (Value.str value)) := by
  unfold call_add_header_value
  simp only []
  have d1 : ((ke : Int) - (key : Int)) = (name.length : Int) := by omega
  have d2 : ((ve : Int) - (v : Int)) = (value.length : Int) := by omega
  rw [d1, d2, h1, h2, add_header_value_eq]

/-- C11: the header block `Host: a:1\r\nHost: b:2\r\n` consists of two lines
`Name: Value\r\n` with the same name Host, yet the hash headers returns holds two
entries, `HTTP_Host: a` -> `1` and `HTTP_Host: b` -> `2`: the later line does not
replace the earlier one and no key holds the value `b:2` of the last line.  For
`X-A: 1\r\nX-A: foo bar\r\n` the later line does win, but the value stored is
`oo bar`, not the value of that line. -/
theorem headers_duplicate_host :
    "Host: a:1\r\nHost: b:2\r\n".toList
      = header_block [("Host".toList, "a:1".toList), ("Host".toList, "b:2".toList)] ∧
    header_entries "Host: a:1\r\nHost: b:2\r\n".toList
      = [some ("Host: a".toList, "1".toList), some ("Host: b".toList, "2".toList)] ∧
    (∀ r : Req, r.header = "Host: a:1\r\nHost: b:2\r\n".toList →
      headers (some r)
        = Except.ok [("HTTP_Host: a".toList, Value.str "1".toList),
            ("HTTP_Host: b".toList, Value.str "2".toList)]) ∧
    "X-A: 1\r\nX-A: foo bar\r\n".toList
      = header_block [("X-A".toList, "1".toList), ("X-A".toList, "foo bar".toList)] ∧
    (∀ r : Req, r.header = "X-A: 1\r\nX-A: foo bar\r\n".toList →
      headers (some r) = Except.ok [("HTTP_X-A".toList, Value.str "oo bar".toList)]) := by
  refine ⟨by decide, by decide, ?_, by decide, ?_⟩
  · intro r hr
    have hc : header_calls "Host: a:1\r\nHost: b:2\r\n".toList
        = [⟨0, some 7, some 8, Ptr.addr 9⟩, ⟨11, some 18, some 19, Ptr.addr 20⟩] := by decide
    have c1 := fun hh => call_add_header_value_eval "Host: a:1\r\nHost: b:2\r\n".toList hh
      0 7 8 9 "Host: a".toList ":1\r\nHost: b:2\r\n".toList "1".toList
      "\r\nHost: b:2\r\n".toList (by decide) (by decide) (by decide) (by decide)
    have c2 := fun hh => call_add_header_value_eval "Host: a:1\r\nHost: b:2\r\n".toList hh
      11 18 19 20 "Host: b".toList ":2\r\n".toList "2".toList "\r\n".toList
      (by decide) (by decide) (by decide) (by decide)
    unfold headers fill_headers
    simp only [hr, hc, List.foldlM_cons, List.foldlM_nil, c1, c2]
    exact congrArg Except.ok (by decide)
  · intro r hr
    have hc : header_calls "X-A: 1\r\nX-A: foo bar\r\n".toList
        = [⟨0, some 3, some 5, Ptr.addr 6⟩, ⟨8, some 11, some 14, Ptr.addr 20⟩] := by decide
    have c1 := fun hh => call_add_header_value_eval "X-A: 1\r\nX-A: foo bar\r\n".toList hh
      0 3 5 6 "X-A".toList ": 1\r\nX-A: foo bar\r\n".toList "1".toList
      "\r\nX-A: foo bar\r\n".toList (by decide) (by decide) (by decide) (by decide)
    have c2 := fun hh => call_add_header_value_eval "X-A: 1\r\nX-A: foo bar\r\n".toList hh
      8 11 14 20 "X-A".toList ": foo bar\r\n".toList "oo bar".toList "\r\n".toList
      (by decide) (by decide) (by decide) (by decide)
    unfold headers fill_headers
    simp only [hr, hc, List.foldlM_cons, List.foldlM_nil, c1, c2]
    exact congrArg Except.ok (by decide)

/-! ## The query string in the environment -/

/-- Every environment request_env returns holds under QUERY_STRING what
req_query_string returned. -/
theorem env_query_string (con_header_value : List Char → List Char → Option (List Char))
    (r : Req) (env : Hash) (h : request_env con_header_value (some r) = Except.ok env) :
    ∃ v4, req_query_string (some r) = Except.ok v4 ∧
      rb_hash_aref env "QUERY_STRING".toList = some v4 := by
  obtain ⟨v1, v2, v3, v4, v5, v6, v8, v9, v10, v11, hm, _, _, _, e4, _, _, hfill, rfl⟩ :=
    request_env_shape_values con_header_value r env h
  unfold fill_headers header_calls at hfill
  simp only [] at hfill
  have keep := foldlM_calls_aref _ _ "QUERY_STRING".toList
    (fixed_not_derived _ (by decide)) _ _ hfill
  refine ⟨v4, e4, ?_⟩
  simp only [aref_aset]
  rw [if_neg (by decide), if_neg (by decide), if_neg (by decide), if_neg (by decide),
    if_neg (by decide), if_neg (by decide), if_neg (by decide), keep]
  simp only [aref_aset]
  rw [if_neg (by decide), if_neg (by decide), if_pos (by decide)]

/-- C14: for every valid request req_query_string returns the query bytes
unchanged when a query range is present (the empty string for an empty range)
and the empty string when the query is absent; it never returns nil, and in
every environment request_env returns QUERY_STRING is that string. -/
theorem req_query_string_text (r : Req) :
    (∀ q, r.query = some q → req_query_string (some r) = Except.ok (Value.str q)) ∧
    (r.query = none → req_query_string (some r) = Except.ok (Value.str [])) ∧
    req_query_string (some r) ≠ Except.ok Value.nil ∧
    (∃ bytes, req_query_string (some r) = Except.ok (Value.str bytes)) ∧
    (∀ (con_header_value : List Char → List Char → Option (List Char)) (env : Hash),
      request_env con_header_value (some r) = Except.ok env →
      ∃ bytes, req_query_string (some r) = Except.ok (Value.str bytes) ∧
        rb_hash_aref env "QUERY_STRING".toList = some (Value.str bytes)) := by
  have hstr : ∃ bytes, req_query_string (some r) = Except.ok (Value.str bytes) ∧
      (∀ q, r.query = some q → bytes = q) ∧ (r.query = none → bytes = []) := by
    obtain ⟨m, p, q, hd, b, s⟩ := r
    cases q with
    | none => exact ⟨[], rfl, fun q h => (by cases h), fun _ => rfl⟩
    | some q =>
      refine ⟨q, ?_, fun q2 h => (by cases h; rfl), fun h => (by cases h)⟩
      simp only [req_query_string, rb_str_new_nat, List.take_length]
  obtain ⟨bytes, e, hq, hn⟩ := hstr
  refine ⟨?_, ?_, ?_, ⟨bytes, e⟩, ?_⟩
  · intro q h; rw [e, hq q h]
  · intro h; rw [e, hn h]
  · rw [e]; intro h; cases h
  · intro con_header_value env h
    obtain ⟨v4, e4, ha⟩ := env_query_string con_header_value r env h
    rw [e] at e4
    cases e4
    exact ⟨bytes, e, ha⟩

theorem req_query_string_text_witness :
    req_query_string (some ⟨Method.GET, ['/'], some "a=1&b=2".toList, [], none, none⟩)
      = Except.ok (Value.str "a=1&b=2".toList) :=
  (req_query_string_text ⟨Method.GET, ['/'], some "a=1&b=2".toList, [], none, none⟩).1
    "a=1&b=2".toList rfl

end Agoo
